import Mathlib

set_option maxHeartbeats 1000000
set_option maxRecDepth 1000000

/-!
Verification development for the Sudoku repository (src/main.py).

The embedding follows the source closely:

* `Cell` mirrors the Python `Cell` class (fields `val`, `is_clickable`,
  `is_active`, `is_valid`; geometry-only fields are presentation-layer and
  carry no game state).
* A `Board` is the 9x9 grid `self.table`.
* `is_sudoku_valid` embeds `Game.is_sudoku_valid`: a row-major scan keeping
  seen-value collections for the 9 rows, 9 columns and 9 blocks, returning
  false as soon as a duplicate is met.  (Python `set` objects are modelled
  as lists: the code only ever tests membership and inserts after a failed
  membership test, so list cons has exactly the same behaviour.)
* `backAux`/`backTry` embed the recursive closure `backtracing` inside
  `Game.is_possible_sudoku_table`, with the in-place mutation of
  `self.table` made explicit by threading the board through, the calls to
  `random.shuffle` modelled by an oracle `sh : Nat -> List Int` consumed at
  a counter `k` (one fresh entry per shuffle call), and a fuel argument
  making the recursion manifestly total (fuel 83 suffices from any start
  position, proved below; the top-level wrappers use 100).
* `genAux`/`genTry` embed `Game._get_random_table` in the same style.
* `maskGo`/`maskTable` embed the masking loop at the end of
  `Game.generate_table`.
-/

def EMPTY_VAL : Int := -1

structure Cell where
  val : Int
  is_clickable : Bool
  is_active : Bool
  is_valid : Bool
deriving DecidableEq

/-- A fresh `Cell(i, j)`: class defaults `val = EMPTY_VAL`,
`is_clickable = True`, `is_active = False`, `is_valid = True`. -/
def newCell : Cell := ⟨EMPTY_VAL, true, false, true⟩

/-- `self.table`: the 9x9 grid, row-major indices `(i, j)`. -/
abbrev Board := Fin 9 → Fin 9 → Cell

/-- The freshly built table in `generate_table` (all cells new). -/
def emptyBoard : Board := fun _ _ => newCell

/-- Value of cell `p` of the board. -/
def valB (b : Board) (p : Fin 9 × Fin 9) : Int := (b p.1 p.2).val

/-- `self.table[i][j].val` at `Nat` indices; in-range in every use below. -/
def valN (b : Board) (i j : Nat) : Int :=
  if hi : i < 9 then if hj : j < 9 then (b ⟨i, hi⟩ ⟨j, hj⟩).val
  else EMPTY_VAL else EMPTY_VAL

/-- `self.table[i][j].val = v` (a no-op when out of range; every actual
write in the source is in range). -/
def setVal (b : Board) (i j : Nat) (v : Int) : Board := fun i2 j2 =>
  if i2.val = i ∧ j2.val = j then { b i2 j2 with val := v } else b i2 j2

/-- Block index `i // 3 * 3 + j // 3` of position `p`. -/
def blockIdx (p : Fin 9 × Fin 9) : Nat := p.1.val / 3 * 3 + p.2.val / 3

lemma blockIdx_lt (p : Fin 9 × Fin 9) : blockIdx p < 9 := by
  have h1 := p.1.isLt
  have h2 := p.2.isLt
  unfold blockIdx
  omega

/-- Block index as an index into the 9 seen-value collections. -/
def blockIdxF (p : Fin 9 × Fin 9) : Fin 9 := ⟨blockIdx p, blockIdx_lt p⟩

/-- The seen-value collections `rows`, `cols`, `blocks` of
`is_sudoku_valid`. -/
structure Seen where
  rows : Fin 9 → List Int
  cols : Fin 9 → List Int
  blks : Fin 9 → List Int

def initSeen : Seen := ⟨fun _ => [], fun _ => [], fun _ => []⟩

/-- The body of the double loop of `is_sudoku_valid`, over the remaining
row-major positions.  `none` models the early `return False`. -/
def scanCells (b : Board) : List (Fin 9 × Fin 9) → Seen → Option Seen
  | [], st => some st
  | p :: ps, st =>
    if (b p.1 p.2).val = EMPTY_VAL then scanCells b ps st
    else
      if (b p.1 p.2).val ∈ st.rows p.1 ∨ (b p.1 p.2).val ∈ st.cols p.2 ∨
          (b p.1 p.2).val ∈ st.blks (blockIdxF p) then none
      else
        scanCells b ps
          { rows := Function.update st.rows p.1 ((b p.1 p.2).val :: st.rows p.1)
            cols := Function.update st.cols p.2 ((b p.1 p.2).val :: st.cols p.2)
            blks := Function.update st.blks (blockIdxF p)
              ((b p.1 p.2).val :: st.blks (blockIdxF p)) }

/-- All 81 positions in row-major order (`for i in range(9): for j in
range(9)`). -/
def posList : List (Fin 9 × Fin 9) :=
  (List.finRange 9).flatMap fun i => (List.finRange 9).map fun j => (i, j)

/-- `Game.is_sudoku_valid`. -/
def is_sudoku_valid (b : Board) : Bool := (scanCells b posList initSeen).isSome

/-- The index renormalisation at the top of `backtracing` and
`_get_random_table`: `if j >= 9: i, j = i + 1, 0`. -/
def norm2 (i j : Nat) : Nat × Nat := if 9 ≤ j then (i + 1, 0) else (i, j)

/-- The `for val in vals` loop of `backtracing` (lines 120-126): try each
candidate in order; `rec` is the recursive call `backtracing(i, j + 1)`.
On a successful recursive call the tentative value is undone before
returning `True`; on a failed one it is undone and the next candidate is
tried. -/
def backTry (rec : Board → Nat → Option (Bool × Board × Nat)) (i j : Nat) :
    List Int → Board → Nat → Option (Bool × Board × Nat)
  | [], b, k => some (false, b, k)
  | v :: vs, b, k =>
    match rec (setVal b i j v) k with
    | none => none
    | some (true, b2, k2) => some (true, setVal b2 i j EMPTY_VAL, k2)
    | some (false, b2, k2) => backTry rec i j vs (setVal b2 i j EMPTY_VAL) k2

/-- The recursive closure `backtracing(i, j)` of
`Game.is_possible_sudoku_table`: prune when the current table is invalid,
renormalise the indices, succeed past the last row, skip already-filled
cells, otherwise try the shuffled candidates `sh k` (the `k`-th call of
`random.shuffle` on `[1..9]`). -/
def backAux (sh : Nat → List Int) : Nat → Nat → Nat → Board → Nat → Option (Bool × Board × Nat)
  | 0, _, _, _, _ => none
  | fuel + 1, i, j, b, k =>
    if is_sudoku_valid b = false then some (false, b, k) else
    let ij := norm2 i j
    if 9 ≤ ij.1 then some (true, b, k) else
    if valN b ij.1 ij.2 ≠ EMPTY_VAL then backAux sh fuel ij.1 (ij.2 + 1) b k
    else backTry (backAux sh fuel ij.1 (ij.2 + 1)) ij.1 ij.2 (sh k) b (k + 1)

/-- `Game.is_possible_sudoku_table`: run `backtracing(0, 0)`. -/
def is_possible_sudoku_table (sh : Nat → List Int) (b : Board) : Bool :=
  match backAux sh 100 0 0 b 0 with
  | some (r, _, _) => r
  | none => false

/-- The `for val in vals` loop of `_get_random_table` (lines 160-165):
unlike the solvability search, a successful recursive call keeps the
value in place. -/
def genTry (rec : Board → Nat → Option (Bool × Board × Nat)) (i j : Nat) :
    List Int → Board → Nat → Option (Bool × Board × Nat)
  | [], b, k => some (false, b, k)
  | v :: vs, b, k =>
    match rec (setVal b i j v) k with
    | none => none
    | some (true, b2, k2) => some (true, b2, k2)
    | some (false, b2, k2) => genTry rec i j vs (setVal b2 i j EMPTY_VAL) k2

/-- `Game._get_random_table(i, j)`: like the solvability search but with
no skip of filled cells and no undo on success. -/
def genAux (sh : Nat → List Int) : Nat → Nat → Nat → Board → Nat → Option (Bool × Board × Nat)
  | 0, _, _, _, _ => none
  | fuel + 1, i, j, b, k =>
    if is_sudoku_valid b = false then some (false, b, k) else
    let ij := norm2 i j
    if 9 ≤ ij.1 then some (true, b, k) else
    genTry (genAux sh fuel ij.1 (ij.2 + 1)) ij.1 ij.2 (sh k) b (k + 1)

/-- `Game._get_random_table()` as called from `generate_table`. -/
def get_random_table (sh : Nat → List Int) (b : Board) : Bool :=
  match genAux sh 100 0 0 b 0 with
  | some (r, _, _) => r
  | none => false

/-- `keep_num_of_cells = 30` (line 141). -/
def keep_num_of_cells : Nat := 30

/-- `cell.is_clickable = False` for position `p`. -/
def setClick (b : Board) (p : Fin 9 × Fin 9) (c : Bool) : Board := fun i2 j2 =>
  if i2 = p.1 ∧ j2 = p.2 then { b i2 j2 with is_clickable := c } else b i2 j2

/-- `cell.val = EMPTY_VAL` for position `p` (Fin-indexed variant). -/
def setValP (b : Board) (p : Fin 9 × Fin 9) (v : Int) : Board := fun i2 j2 =>
  if i2 = p.1 ∧ j2 = p.2 then { b i2 j2 with val := v } else b i2 j2

/-- The masking loop of `generate_table` (lines 142-148): `k` counts the
processed positions; the first `81 - keep_num_of_cells` positions of the
shuffled list are emptied, the rest become non-clickable. -/
def maskGo (b : Board) (k : Nat) : List (Fin 9 × Fin 9) → Board
  | [] => b
  | p :: ps =>
    maskGo
      (if k < 81 - keep_num_of_cells then setValP b p EMPTY_VAL
       else setClick b p false) (k + 1) ps

/-- The whole masking step of `generate_table`, applied to the solved
board `b` with the shuffled position list `ps` (`all_pos`). -/
def maskTable (b : Board) (ps : List (Fin 9 × Fin 9)) : Board := maskGo b 0 ps

/-- The list `[i for i in range(1, 10)]` of candidate digits. -/
def L19 : List Int := [1, 2, 3, 4, 5, 6, 7, 8, 9]

/-- The trivial shuffle oracle: every `random.shuffle` call leaves
`[1..9]` in order (one admissible outcome of a uniform shuffle). -/
def shId : Nat → List Int := fun _ => L19

lemma shId_perm : ∀ k, (shId k).Perm L19 := fun _ => List.Perm.refl _

lemma mem_L19 {v : Int} : v ∈ L19 ↔ 1 ≤ v ∧ v ≤ 9 := by
  simp only [L19, List.mem_cons, List.not_mem_nil, or_false]
  omega

/-- Value of the classic shifted complete solution at cell `(i, j)`. -/
def solValN (i j : Nat) : Nat := (3 * (i % 3) + i / 3 + j) % 9 + 1

/-- A concrete complete solution board (all flags at their defaults). -/
def solB : Board := fun i j => ⟨(solValN i.val j.val : Int), true, false, true⟩

lemma solValN_bounds (i j : Nat) : 1 ≤ solValN i j ∧ solValN i j ≤ 9 := by
  unfold solValN
  omega

/-- A shuffle oracle whose `k`-th outcome puts the digit of `solB` at the
`k`-th row-major cell first: with it, generation from the empty board
finds `solB` with no backtracking. -/
def shSol : Nat → List Int :=
  fun k => ((solValN (k / 9) (k % 9) : Int)) :: L19.erase ((solValN (k / 9) (k % 9) : Int))

lemma shSol_perm : ∀ k, (shSol k).Perm L19 := by
  intro k
  have hm : ((solValN (k / 9) (k % 9) : Int)) ∈ L19 := by
    rw [mem_L19]
    have := solValN_bounds (k / 9) (k % 9)
    omega
  exact (List.perm_cons_erase hm).symm

/-- A board that is already invalid: two `1`s in row 0. -/
def bInv : Board := fun i j =>
  if i.val = 0 ∧ j.val ≤ 1 then ⟨1, true, false, true⟩ else newCell

/-- A consistent board on which the solvability search fails after
branching only at cell `(0, 0)`: row 0 ends in `1..8` and column 0 has a
`9` below, so every candidate for `(0, 0)` conflicts. -/
def bStuck : Board := fun i j =>
  if i.val = 0 ∧ 1 ≤ j.val then ⟨(j.val : Int), true, false, true⟩
  else if i.val = 1 ∧ j.val = 0 then ⟨9, true, false, true⟩
  else newCell

/-- A board whose non-empty values include the out-of-range digits `0`
and `10`, with no duplicate in any unit. -/
def bOut : Board := fun i j =>
  if i.val = 0 ∧ j.val = 0 then ⟨0, true, false, true⟩
  else if i.val = 0 ∧ j.val = 1 then ⟨10, true, false, true⟩
  else newCell

/-- One recorded write `self.table[i][j].val = v` of the solvability
search: the position written and the value stored. -/
abbrev Write := (Nat × Nat) × Int

/-- `backTry` instrumented with the list of writes it performs, in
order.  The algorithm is exactly that of `backTry`; the last component
only records each `setVal`. -/
def backTryT (rec : Board → Nat → Option (Bool × Board × Nat × List Write)) (i j : Nat) :
    List Int → Board → Nat → Option (Bool × Board × Nat × List Write)
  | [], b, k => some (false, b, k, [])
  | v :: vs, b, k =>
    match rec (setVal b i j v) k with
    | none => none
    | some (true, b2, k2, tr) =>
      some (true, setVal b2 i j EMPTY_VAL, k2, (((i, j), v) :: tr) ++ [((i, j), EMPTY_VAL)])
    | some (false, b2, k2, tr) =>
      match backTryT rec i j vs (setVal b2 i j EMPTY_VAL) k2 with
      | none => none
      | some (r, b3, k3, tr2) =>
        some (r, b3, k3, (((i, j), v) :: tr) ++ ((i, j), EMPTY_VAL) :: tr2)

/-- `backAux` instrumented with the list of writes it performs. -/
def backAuxT (sh : Nat → List Int) : Nat → Nat → Nat → Board → Nat → Option (Bool × Board × Nat × List Write)
  | 0, _, _, _, _ => none
  | fuel + 1, i, j, b, k =>
    if is_sudoku_valid b = false then some (false, b, k, []) else
    let ij := norm2 i j
    if 9 ≤ ij.1 then some (true, b, k, []) else
    if valN b ij.1 ij.2 ≠ EMPTY_VAL then backAuxT sh fuel ij.1 (ij.2 + 1) b k
    else backTryT (backAuxT sh fuel ij.1 (ij.2 + 1)) ij.1 ij.2 (sh k) b (k + 1)

/-- Forget the recorded writes. -/
def dropTrace (x : Option (Bool × Board × Nat × List Write)) : Option (Bool × Board × Nat) :=
  x.map fun y => (y.1, y.2.1, y.2.2.1)

/-! ### Basic lemmas about cells, values and writes -/

lemma valN_lt (b : Board) {i j : Nat} (hi : i < 9) (hj : j < 9) :
    valN b i j = (b ⟨i, hi⟩ ⟨j, hj⟩).val := by
  simp [valN, hi, hj]

lemma valB_eq_valN (b : Board) (p : Fin 9 × Fin 9) :
    valB b p = valN b p.1.val p.2.val := by
  simp [valB, valN, p.1.isLt, p.2.isLt]

/-- Row-major index of a position. -/
def idx (p : Fin 9 × Fin 9) : Nat := 9 * p.1.val + p.2.val

lemma idx_le (p : Fin 9 × Fin 9) : idx p ≤ 80 := by
  have h1 := p.1.isLt
  have h2 := p.2.isLt
  unfold idx
  omega

lemma idx_eq_pos {p : Fin 9 × Fin 9} {i j : Nat} (hi : i < 9) (hj : j < 9)
    (h : idx p = 9 * i + j) : p = (⟨i, hi⟩, ⟨j, hj⟩) := by
  have h1 := p.1.isLt
  have h2 := p.2.isLt
  unfold idx at h
  have hij : p.1.val = i ∧ p.2.val = j := by omega
  exact Prod.ext (Fin.ext hij.1) (Fin.ext hij.2)

lemma idx_pos_eq {i j : Nat} (hi : i < 9) (hj : j < 9) :
    idx (⟨i, hi⟩, ⟨j, hj⟩) = 9 * i + j := rfl

lemma setVal_apply_of_ne (b : Board) {i j : Nat} (v : Int) {p : Fin 9 × Fin 9}
    (h : ¬(p.1.val = i ∧ p.2.val = j)) : setVal b i j v p.1 p.2 = b p.1 p.2 := by
  simp [setVal, h]

lemma valB_setVal_of_idx_ne (b : Board) {i j : Nat} (v : Int) {p : Fin 9 × Fin 9}
    (h : idx p ≠ 9 * i + j) :
    valB (setVal b i j v) p = valB b p := by
  have hne : ¬(p.1.val = i ∧ p.2.val = j) := by
    rintro ⟨h1, h2⟩
    exact h (by unfold idx; omega)
  unfold valB
  rw [setVal_apply_of_ne b v hne]

lemma valB_setVal_self (b : Board) {i j : Nat} (hi : i < 9) (hj : j < 9) (v : Int) :
    valB (setVal b i j v) (⟨i, hi⟩, ⟨j, hj⟩) = v := by
  simp [valB, setVal]

lemma valN_setVal_self (b : Board) {i j : Nat} (hi : i < 9) (hj : j < 9) (v : Int) :
    valN (setVal b i j v) i j = v := by
  rw [valN_lt _ hi hj]
  exact valB_setVal_self b hi hj v

lemma setVal_setVal (b : Board) (i j : Nat) (v w : Int) :
    setVal (setVal b i j v) i j w = setVal b i j w := by
  funext i2 j2
  by_cases h : i2.val = i ∧ j2.val = j <;> simp [setVal, h]

lemma setVal_eq_self {b : Board} {i j : Nat} (hi : i < 9) (hj : j < 9)
    (h : valN b i j = EMPTY_VAL) : setVal b i j EMPTY_VAL = b := by
  rw [valN_lt b hi hj] at h
  funext i2 j2
  by_cases h2 : i2.val = i ∧ j2.val = j
  · have hi2 : i2 = ⟨i, hi⟩ := Fin.ext h2.1
    have hj2 : j2 = ⟨j, hj⟩ := Fin.ext h2.2
    subst hi2
    subst hj2
    simp only [setVal, h2, if_pos, and_self]
    cases hc : b ⟨i, hi⟩ ⟨j, hj⟩
    rw [hc] at h
    simp_all
  · simp [setVal, h2]

lemma setVal_click (b : Board) (i j : Nat) (v : Int) (i2 : Fin 9) (j2 : Fin 9) :
    (setVal b i j v i2 j2).is_clickable = (b i2 j2).is_clickable := by
  unfold setVal
  split <;> rfl

/-! ### The validity scan and its pairwise characterisation -/

/-- Two distinct positions share a unit when they lie in the same row,
the same column, or the same `3x3` block. -/
def sameUnit (p q : Fin 9 × Fin 9) : Prop :=
  p.1 = q.1 ∨ p.2 = q.2 ∨ blockIdx p = blockIdx q

instance : ∀ p q : Fin 9 × Fin 9, Decidable (sameUnit p q) := fun p q => by
  unfold sameUnit
  infer_instance

lemma sameUnit_symm {p q : Fin 9 × Fin 9} (h : sameUnit p q) : sameUnit q p := by
  rcases h with h | h | h
  · exact Or.inl h.symm
  · exact Or.inr (Or.inl h.symm)
  · exact Or.inr (Or.inr h.symm)

/-- A duplicate: two non-empty cells sharing a unit with equal values. -/
def Conf (b : Board) (p q : Fin 9 × Fin 9) : Prop :=
  sameUnit p q ∧ valB b p ≠ EMPTY_VAL ∧ valB b q ≠ EMPTY_VAL ∧ valB b p = valB b q

instance : ∀ (b : Board) (p q : Fin 9 × Fin 9), Decidable (Conf b p q) := fun b p q => by
  unfold Conf
  infer_instance

lemma conf_symm {b : Board} {p q : Fin 9 × Fin 9} (h : Conf b p q) : Conf b q p :=
  ⟨sameUnit_symm h.1, h.2.2.1, h.2.1, h.2.2.2.symm⟩

/-- The property claimed of `is_sudoku_valid`: no two distinct non-empty
cells sharing a row, a column or a block hold the same value. -/
def PairOk (b : Board) : Prop :=
  ∀ p q : Fin 9 × Fin 9, p ≠ q → sameUnit p q →
    valB b p ≠ EMPTY_VAL → valB b q ≠ EMPTY_VAL → valB b p ≠ valB b q

instance : ∀ b : Board, Decidable (PairOk b) := fun b => by
  unfold PairOk
  infer_instance

/-- The seen-value collections faithfully describe the processed prefix
`hist` of the scan. -/
def StInv (b : Board) (hist : List (Fin 9 × Fin 9)) (st : Seen) : Prop :=
  (∀ u : Fin 9, ∀ v : Int, v ∈ st.rows u ↔
    ∃ q, q ∈ hist ∧ q.1 = u ∧ valB b q ≠ EMPTY_VAL ∧ valB b q = v) ∧
  (∀ u : Fin 9, ∀ v : Int, v ∈ st.cols u ↔
    ∃ q, q ∈ hist ∧ q.2 = u ∧ valB b q ≠ EMPTY_VAL ∧ valB b q = v) ∧
  (∀ u : Fin 9, ∀ v : Int, v ∈ st.blks u ↔
    ∃ q, q ∈ hist ∧ blockIdxF q = u ∧ valB b q ≠ EMPTY_VAL ∧ valB b q = v)

lemma seenUpd {b : Board} {hist : List (Fin 9 × Fin 9)}
    (f : Fin 9 × Fin 9 → Fin 9) (g : Fin 9 → List Int) (p : Fin 9 × Fin 9)
    (hg : ∀ u v, v ∈ g u ↔ ∃ q, q ∈ hist ∧ f q = u ∧ valB b q ≠ EMPTY_VAL ∧ valB b q = v)
    (hp : valB b p ≠ EMPTY_VAL) :
    ∀ u v, v ∈ Function.update g (f p) ((b p.1 p.2).val :: g (f p)) u ↔
      ∃ q, q ∈ hist ++ [p] ∧ f q = u ∧ valB b q ≠ EMPTY_VAL ∧ valB b q = v := by
  intro u v
  rw [Function.update_apply]
  by_cases hu : u = f p
  · subst hu
    rw [if_pos rfl]
    simp only [List.mem_cons, hg, List.mem_append, List.not_mem_nil, or_false]
    constructor
    · rintro (rfl | ⟨q, hq, h1, h2, h3⟩)
      · exact ⟨p, Or.inr rfl, rfl, hp, rfl⟩
      · exact ⟨q, Or.inl hq, h1, h2, h3⟩
    · rintro ⟨q, hq | rfl, h1, h2, h3⟩
      · exact Or.inr ⟨q, hq, h1, h2, h3⟩
      · exact Or.inl h3.symm
  · rw [if_neg hu]
    rw [hg u v]
    constructor
    · rintro ⟨q, hq, h1, h2, h3⟩
      exact ⟨q, List.mem_append_left _ hq, h1, h2, h3⟩
    · rintro ⟨q, hq, h1, h2, h3⟩
      rcases List.mem_append.mp hq with hq2 | hq2
      · exact ⟨q, hq2, h1, h2, h3⟩
      · rw [List.mem_singleton] at hq2
        subst hq2
        exact absurd h1 (fun he => hu he.symm)

lemma scan_iff (b : Board) : ∀ (todo hist : List (Fin 9 × Fin 9)) (st : Seen),
    StInv b hist st →
    ((scanCells b todo st).isSome = true ↔
      ((∀ p ∈ hist, ∀ q ∈ todo, ¬ Conf b p q) ∧
        todo.Pairwise (fun p q => ¬ Conf b p q))) := by
  intro todo
  induction todo with
  | nil =>
    intro hist st _
    simp [scanCells]
  | cons p ps ih =>
    intro hist st hinv
    obtain ⟨hr, hc, hb⟩ := hinv
    by_cases hval : (b p.1 p.2).val = EMPTY_VAL
    · have hvalB : valB b p = EMPTY_VAL := hval
      have hnc : ∀ q, ¬ Conf b q p := fun q hcf => hcf.2.2.1 hvalB
      have hnc2 : ∀ q, ¬ Conf b p q := fun q hcf => hcf.2.1 hvalB
      rw [scanCells, if_pos hval, ih hist st ⟨hr, hc, hb⟩]
      constructor
      · rintro ⟨h1, h2⟩
        refine ⟨fun a ha q hq => ?_, List.Pairwise.cons (fun q _ => hnc2 q) h2⟩
        rcases List.mem_cons.mp hq with rfl | hq2
        · exact hnc a
        · exact h1 a ha q hq2
      · rintro ⟨h1, h2⟩
        exact ⟨fun a ha q hq => h1 a ha q (List.mem_cons_of_mem _ hq),
          (List.pairwise_cons.mp h2).2⟩
    · have hvalB : valB b p ≠ EMPTY_VAL := hval
      have hmemiff :
          ((b p.1 p.2).val ∈ st.rows p.1 ∨ (b p.1 p.2).val ∈ st.cols p.2 ∨
            (b p.1 p.2).val ∈ st.blks (blockIdxF p)) ↔
          ∃ q, q ∈ hist ∧ Conf b q p := by
        constructor
        · rintro (hm | hm | hm)
          · obtain ⟨q, hq, h1, h2, h3⟩ := (hr p.1 _).mp hm
            exact ⟨q, hq, Or.inl h1, h2, hvalB, h3⟩
          · obtain ⟨q, hq, h1, h2, h3⟩ := (hc p.2 _).mp hm
            exact ⟨q, hq, Or.inr (Or.inl h1), h2, hvalB, h3⟩
          · obtain ⟨q, hq, h1, h2, h3⟩ := (hb (blockIdxF p) _).mp hm
            exact ⟨q, hq, Or.inr (Or.inr (congrArg Fin.val h1)), h2, hvalB, h3⟩
        · rintro ⟨q, hq, hsu, hnq, _, heq⟩
          rcases hsu with h1 | h1 | h1
          · exact Or.inl ((hr p.1 _).mpr ⟨q, hq, h1, hnq, heq⟩)
          · exact Or.inr (Or.inl ((hc p.2 _).mpr ⟨q, hq, h1, hnq, heq⟩))
          · exact Or.inr (Or.inr ((hb (blockIdxF p) _).mpr
              ⟨q, hq, Fin.ext h1, hnq, heq⟩))
      by_cases hdup : (b p.1 p.2).val ∈ st.rows p.1 ∨ (b p.1 p.2).val ∈ st.cols p.2 ∨
          (b p.1 p.2).val ∈ st.blks (blockIdxF p)
      · rw [scanCells, if_neg hval, if_pos hdup]
        obtain ⟨q, hq, hcq⟩ := hmemiff.mp hdup
        apply iff_of_false (by simp)
        rintro ⟨h1, _⟩
        exact h1 q hq p (List.mem_cons_self p ps) hcq
      · rw [scanCells, if_neg hval, if_neg hdup]
        have hinv2 : StInv b (hist ++ [p])
            { rows := Function.update st.rows p.1 ((b p.1 p.2).val :: st.rows p.1)
              cols := Function.update st.cols p.2 ((b p.1 p.2).val :: st.cols p.2)
              blks := Function.update st.blks (blockIdxF p)
                ((b p.1 p.2).val :: st.blks (blockIdxF p)) } :=
          ⟨seenUpd Prod.fst st.rows p hr hvalB,
           seenUpd Prod.snd st.cols p hc hvalB,
           seenUpd blockIdxF st.blks p hb hvalB⟩
        rw [ih (hist ++ [p]) _ hinv2]
        have hnop : ∀ q ∈ hist, ¬ Conf b q p := fun q hq hcf =>
          hdup (hmemiff.mpr ⟨q, hq, hcf⟩)
        constructor
        · rintro ⟨h1, h2⟩
          refine ⟨fun a ha q hq => ?_, List.Pairwise.cons (fun q hq => ?_) h2⟩
          · rcases List.mem_cons.mp hq with rfl | hq2
            · exact hnop a ha
            · exact h1 a (List.mem_append_left _ ha) q hq2
          · exact fun hcf => h1 p (List.mem_append_right _ (List.mem_singleton.mpr rfl))
              q hq hcf
        · rintro ⟨h1, h2⟩
          obtain ⟨h2a, h2b⟩ := List.pairwise_cons.mp h2
          refine ⟨fun a ha q hq => ?_, h2b⟩
          rcases List.mem_append.mp ha with ha2 | ha2
          · exact h1 a ha2 q (List.mem_cons_of_mem _ hq)
          · rw [List.mem_singleton] at ha2
            subst ha2
            exact h2a q hq

lemma mem_posList : ∀ p : Fin 9 × Fin 9, p ∈ posList := by
  decide

lemma posList_nodup : posList.Nodup := by
  decide

lemma initSeen_inv (b : Board) : StInv b [] initSeen := by
  refine ⟨?_, ?_, ?_⟩ <;>
    · intro u v
      simp [initSeen]

/-- The scan of `is_sudoku_valid` returns true exactly when no two
distinct non-empty cells sharing a unit hold the same value. -/
lemma valid_iff_pairOk (b : Board) : is_sudoku_valid b = true ↔ PairOk b := by
  unfold is_sudoku_valid
  rw [scan_iff b posList [] initSeen (initSeen_inv b)]
  constructor
  · rintro ⟨_, h2⟩
    intro p q hne hsu hnp hnq heq
    have hsym : Symmetric (fun p q : Fin 9 × Fin 9 => ¬ Conf b p q) :=
      fun x y hxy hcf => hxy (conf_symm hcf)
    exact h2.forall hsym (mem_posList p) (mem_posList q) hne ⟨hsu, hnp, hnq, heq⟩
  · intro hp
    refine ⟨by simp, posList_nodup.pairwise_of_forall_ne ?_⟩
    rintro a _ q _ hne ⟨hsu, h1, h2, h3⟩
    exact hp a q hne hsu h1 h2 h3

lemma scanCells_val_congr {b1 b2 : Board} (h : ∀ p, valB b1 p = valB b2 p) :
    ∀ (l : List (Fin 9 × Fin 9)) (st : Seen), scanCells b1 l st = scanCells b2 l st := by
  intro l
  induction l with
  | nil => intro st; rfl
  | cons p ps ih =>
    intro st
    have hp : (b1 p.1 p.2).val = (b2 p.1 p.2).val := h p
    rw [scanCells, scanCells, hp]
    by_cases h1 : (b2 p.1 p.2).val = EMPTY_VAL
    · rw [if_pos h1, if_pos h1, ih]
    · rw [if_neg h1, if_neg h1]
      by_cases h2 : (b2 p.1 p.2).val ∈ st.rows p.1 ∨ (b2 p.1 p.2).val ∈ st.cols p.2 ∨
          (b2 p.1 p.2).val ∈ st.blks (blockIdxF p)
      · rw [if_pos h2, if_pos h2]
      · rw [if_neg h2, if_neg h2, ih]

lemma valid_val_congr {b1 b2 : Board} (h : ∀ p, valB b1 p = valB b2 p) :
    is_sudoku_valid b1 = is_sudoku_valid b2 := by
  unfold is_sudoku_valid
  rw [scanCells_val_congr h]

/-- `b1` is a sub-board of `b2`: every non-empty cell of `b1` carries the
value `b2` has there. -/
def SubBoard (b1 b2 : Board) : Prop :=
  ∀ p : Fin 9 × Fin 9, valB b1 p ≠ EMPTY_VAL → valB b1 p = valB b2 p

lemma pairOk_of_sub {b1 b2 : Board} (hs : SubBoard b1 b2) (h : PairOk b2) : PairOk b1 := by
  intro p q hne hsu hnp hnq heq
  have h1 := hs p hnp
  have h2 := hs q hnq
  rw [h1, h2] at heq
  exact h p q hne hsu (h1 ▸ hnp) (h2 ▸ hnq) heq

lemma valid_of_sub {b1 b2 : Board} (hs : SubBoard b1 b2)
    (h : is_sudoku_valid b2 = true) : is_sudoku_valid b1 = true :=
  (valid_iff_pairOk b1).mpr (pairOk_of_sub hs ((valid_iff_pairOk b2).mp h))

/-! ### The solvability search -/

/-- `s` witnesses solvability of `b` from row-major position `n` on: it
agrees with `b` strictly below `n`, keeps every filled cell of `b` at or
above `n`, fills every empty cell at or above `n` with a digit `1..9`,
and is a valid table. -/
def Sol (n : Nat) (b s : Board) : Prop :=
  (∀ p : Fin 9 × Fin 9, idx p < n → valB s p = valB b p) ∧
  (∀ p : Fin 9 × Fin 9, n ≤ idx p → valB b p ≠ EMPTY_VAL → valB s p = valB b p) ∧
  (∀ p : Fin 9 × Fin 9, n ≤ idx p → valB b p = EMPTY_VAL →
    1 ≤ valB s p ∧ valB s p ≤ 9) ∧
  is_sudoku_valid s = true

lemma sol_valid_from {n : Nat} {b s : Board} (h : Sol n b s) :
    is_sudoku_valid b = true := by
  obtain ⟨h1, h2, h3, h4⟩ := h
  refine valid_of_sub ?_ h4
  intro p hp
  by_cases hn : idx p < n
  · exact (h1 p hn).symm
  · exact (h2 p (Nat.le_of_not_lt hn) hp).symm

lemma sol_step_of_filled {n : Nat} {b s : Board} {p : Fin 9 × Fin 9}
    (hp : idx p = n) (hf : valB b p ≠ EMPTY_VAL) (h : Sol (n + 1) b s) : Sol n b s := by
  obtain ⟨h1, h2, h3, h4⟩ := h
  refine ⟨fun q hq => h1 q (by omega), fun q hq hnq => ?_, fun q hq heq => ?_, h4⟩
  · by_cases he : idx q = n
    · exact h1 q (by omega)
    · exact h2 q (by omega) hnq
  · by_cases he : idx q = n
    · have : q = p := by
        have hb1 := idx_le p
        have h9 : p.1.val < 9 := p.1.isLt
        have h9b : p.2.val < 9 := p.2.isLt
        have := idx_eq_pos (i := p.1.val) (j := p.2.val) h9 h9b
          (p := q) (by unfold idx at *; omega)
        simpa using this
      rw [this] at heq
      exact absurd heq hf
    · exact h3 q (by omega) heq

lemma sol_filled_step {n : Nat} {b s : Board} {p : Fin 9 × Fin 9}
    (hp : idx p = n) (hf : valB b p ≠ EMPTY_VAL) (h : Sol n b s) : Sol (n + 1) b s := by
  obtain ⟨h1, h2, h3, h4⟩ := h
  refine ⟨fun q hq => ?_, fun q hq hnq => h2 q (by omega) hnq,
    fun q hq hmq => h3 q (by omega) hmq, h4⟩
  by_cases he : idx q = n
  · have : q = p := by
      have h9 : p.1.val < 9 := p.1.isLt
      have h9b : p.2.val < 9 := p.2.isLt
      have := idx_eq_pos (i := p.1.val) (j := p.2.val) h9 h9b
        (p := q) (by unfold idx at *; omega)
      simpa using this
    subst this
    exact h2 q (by omega) hf
  · exact h1 q (by omega)

lemma backAux_succ (sh : Nat → List Int) (fuel i j : Nat) (b : Board) (k : Nat)
    (hj : j ≤ 9) :
    ∃ i2 j2, norm2 i j = (i2, j2) ∧ 9 * i2 + j2 = 9 * i + j ∧ j2 < 9 ∧
    backAux sh (fuel + 1) i j b k =
      (if is_sudoku_valid b = false then some (false, b, k) else
       if 9 ≤ i2 then some (true, b, k) else
       if valN b i2 j2 ≠ EMPTY_VAL then backAux sh fuel i2 (j2 + 1) b k
       else backTry (backAux sh fuel i2 (j2 + 1)) i2 j2 (sh k) b (k + 1)) := by
  by_cases h9 : 9 ≤ j
  · refine ⟨i + 1, 0, by simp [norm2, h9], by omega, by omega, ?_⟩
    simp only [backAux, norm2, if_pos h9]
  · refine ⟨i, j, by simp [norm2, h9], by omega, by omega, ?_⟩
    simp only [backAux, norm2, if_neg h9]

lemma genAux_succ (sh : Nat → List Int) (fuel i j : Nat) (b : Board) (k : Nat)
    (hj : j ≤ 9) :
    ∃ i2 j2, norm2 i j = (i2, j2) ∧ 9 * i2 + j2 = 9 * i + j ∧ j2 < 9 ∧
    genAux sh (fuel + 1) i j b k =
      (if is_sudoku_valid b = false then some (false, b, k) else
       if 9 ≤ i2 then some (true, b, k) else
       genTry (genAux sh fuel i2 (j2 + 1)) i2 j2 (sh k) b (k + 1)) := by
  by_cases h9 : 9 ≤ j
  · refine ⟨i + 1, 0, by simp [norm2, h9], by omega, by omega, ?_⟩
    simp only [genAux, norm2, if_pos h9]
  · refine ⟨i, j, by simp [norm2, h9], by omega, by omega, ?_⟩
    simp only [genAux, norm2, if_neg h9]

lemma backTry_restore {rec : Board → Nat → Option (Bool × Board × Nat)} {i j : Nat}
    (hi : i < 9) (hj : j < 9)
    (hrec : ∀ b k r b2 k2, rec b k = some (r, b2, k2) → b2 = b) :
    ∀ (vs : List Int) (b : Board) (k : Nat) (r : Bool) (b2 : Board) (k2 : Nat),
      valN b i j = EMPTY_VAL → backTry rec i j vs b k = some (r, b2, k2) → b2 = b := by
  intro vs
  induction vs with
  | nil =>
    intro b k r b2 k2 _ h
    rw [backTry] at h
    injection h with h2
    exact (congrArg (fun x => x.2.1) h2).symm
  | cons v vs ih =>
    intro b k r b2 k2 hE h
    rw [backTry] at h
    rcases hr : rec (setVal b i j v) k with _ | ⟨r3, b3, k3⟩
    · rw [hr] at h
      exact absurd h (by simp)
    · rw [hr] at h
      have hb3 : b3 = setVal b i j v := hrec _ _ _ _ _ hr
      rcases r3 with _ | _
      · simp only at h
        have hback : setVal b3 i j EMPTY_VAL = b := by
          rw [hb3, setVal_setVal]
          exact setVal_eq_self hi hj hE
        rw [hback] at h
        exact ih b k3 r b2 k2 hE h
      · simp only at h
        injection h with h2
        have : b2 = setVal b3 i j EMPTY_VAL := (congrArg (fun x => x.2.1) h2).symm
        rw [this, hb3, setVal_setVal]
        exact setVal_eq_self hi hj hE

lemma backAux_restore (sh : Nat → List Int) :
    ∀ (fuel i j : Nat) (b : Board) (k : Nat) (r : Bool) (b2 : Board) (k2 : Nat),
      j ≤ 9 → backAux sh fuel i j b k = some (r, b2, k2) → b2 = b := by
  intro fuel
  induction fuel with
  | zero =>
    intro i j b k r b2 k2 _ h
    exact absurd h (by simp [backAux])
  | succ fuel ih =>
    intro i j b k r b2 k2 hj h
    obtain ⟨i2, j2, _, _, hj2, heq⟩ := backAux_succ sh fuel i j b k hj
    rw [heq] at h
    by_cases hv : is_sudoku_valid b = false
    · rw [if_pos hv] at h
      injection h with h2
      exact (congrArg (fun x => x.2.1) h2).symm
    · rw [if_neg hv] at h
      by_cases h9 : 9 ≤ i2
      · rw [if_pos h9] at h
        injection h with h2
        exact (congrArg (fun x => x.2.1) h2).symm
      · rw [if_neg h9] at h
        by_cases hne : valN b i2 j2 ≠ EMPTY_VAL
        · rw [if_pos hne] at h
          exact ih i2 (j2 + 1) b k r b2 k2 (by omega) h
        · rw [if_neg hne] at h
          push_neg at hne
          exact backTry_restore (by omega) hj2
            (fun b3 k3 r3 b4 k4 hh => ih i2 (j2 + 1) b3 k3 r3 b4 k4 (by omega) hh)
            (sh k) b (k + 1) r b2 k2 hne h

lemma backTry_isSome {rec : Board → Nat → Option (Bool × Board × Nat)} {i j : Nat}
    (hrec : ∀ b k, (rec b k).isSome = true) :
    ∀ (vs : List Int) (b : Board) (k : Nat), (backTry rec i j vs b k).isSome = true := by
  intro vs
  induction vs with
  | nil => intro b k; simp [backTry]
  | cons v vs ih =>
    intro b k
    rw [backTry]
    rcases hr : rec (setVal b i j v) k with _ | ⟨r3, b3, k3⟩
    · have := hrec (setVal b i j v) k
      rw [hr] at this
      exact absurd this (by simp)
    · rcases r3 with _ | _
      · exact ih (setVal b3 i j EMPTY_VAL) k3
      · simp

lemma backAux_isSome (sh : Nat → List Int) :
    ∀ (fuel i j : Nat) (b : Board) (k : Nat),
      j ≤ 9 → 9 * i + j ≤ 81 → 83 ≤ fuel + (9 * i + j) →
      (backAux sh fuel i j b k).isSome = true := by
  intro fuel
  induction fuel with
  | zero =>
    intro i j b k hj hle hf
    omega
  | succ fuel ih =>
    intro i j b k hj hle hf
    obtain ⟨i2, j2, _, hidx, hj2, heq⟩ := backAux_succ sh fuel i j b k hj
    rw [heq]
    by_cases hv : is_sudoku_valid b = false
    · simp [hv]
    · rw [if_neg hv]
      by_cases h9 : 9 ≤ i2
      · simp [h9]
      · rw [if_neg h9]
        have hrec : ∀ (b3 : Board) (k3 : Nat),
            (backAux sh fuel i2 (j2 + 1) b3 k3).isSome = true :=
          fun b3 k3 => ih i2 (j2 + 1) b3 k3 (by omega) (by omega) (by omega)
        by_cases hne : valN b i2 j2 ≠ EMPTY_VAL
        · rw [if_pos hne]
          exact hrec b k
        · rw [if_neg hne]
          exact backTry_isSome hrec (sh k) b (k + 1)

lemma backTry_sound {rec : Board → Nat → Option (Bool × Board × Nat)} {i j : Nat}
    (hi : i < 9) (hj : j < 9)
    (hrecS : ∀ b k b2 k2, rec b k = some (true, b2, k2) → ∃ s, Sol (9 * i + j + 1) b s)
    (hrecR : ∀ b k r b2 k2, rec b k = some (r, b2, k2) → b2 = b) :
    ∀ (vs : List Int), (∀ v ∈ vs, 1 ≤ v ∧ v ≤ 9) →
    ∀ (b : Board) (k : Nat) (b2 : Board) (k2 : Nat),
      valN b i j = EMPTY_VAL → backTry rec i j vs b k = some (true, b2, k2) →
      ∃ s, Sol (9 * i + j) b s := by
  intro vs
  induction vs with
  | nil =>
    intro _ b k b2 k2 _ h
    rw [backTry] at h
    injection h with h2
    exact absurd (congrArg (fun x => x.1) h2) (by simp)
  | cons v vs ih =>
    intro hvs b k b2 k2 hE h
    have hEp : valB b (⟨i, hi⟩, ⟨j, hj⟩) = EMPTY_VAL := by
      rw [valB_eq_valN]
      exact hE
    rw [backTry] at h
    rcases hr : rec (setVal b i j v) k with _ | ⟨r3, b3, k3⟩
    · rw [hr] at h
      exact absurd h (by simp)
    · rw [hr] at h
      have hb3 : b3 = setVal b i j v := hrecR _ _ _ _ _ hr
      rcases r3 with _ | _
      · simp only at h
        have hback : setVal b3 i j EMPTY_VAL = b := by
          rw [hb3, setVal_setVal]
          exact setVal_eq_self hi hj hE
        rw [hback] at h
        exact ih (fun w hw => hvs w (List.mem_cons_of_mem _ hw)) b k3 b2 k2 hE h
      · obtain ⟨s, hs1, hs2, hs3, hs4⟩ := hrecS _ _ _ _ hr
        refine ⟨s, fun q hq => ?_, fun q hq hnq => ?_, fun q hq heq => ?_, hs4⟩
        · have hqn : idx q ≠ 9 * i + j := by omega
          rw [hs1 q (by omega), valB_setVal_of_idx_ne b v hqn]
        · by_cases hqe : idx q = 9 * i + j
          · have : q = (⟨i, hi⟩, ⟨j, hj⟩) := idx_eq_pos hi hj hqe
            rw [this] at hnq
            exact absurd hEp hnq
          · have hv2 : valB (setVal b i j v) q ≠ EMPTY_VAL := by
              rw [valB_setVal_of_idx_ne b v hqe]
              exact hnq
            rw [hs2 q (by omega) hv2, valB_setVal_of_idx_ne b v hqe]
        · by_cases hqe : idx q = 9 * i + j
          · have hq2 : q = (⟨i, hi⟩, ⟨j, hj⟩) := idx_eq_pos hi hj hqe
            have hval : valB s q = v := by
              rw [hs1 q (by omega), hq2]
              exact valB_setVal_self b hi hj v
            rw [hval]
            exact hvs v (List.mem_cons_self v vs)
          · have hv2 : valB (setVal b i j v) q = EMPTY_VAL := by
              rw [valB_setVal_of_idx_ne b v hqe]
              exact heq
            exact hs3 q (by omega) hv2

lemma backAux_sound (sh : Nat → List Int) (hsh : ∀ k, (sh k).Perm L19) :
    ∀ (fuel i j : Nat) (b : Board) (k : Nat) (b2 : Board) (k2 : Nat),
      j ≤ 9 → backAux sh fuel i j b k = some (true, b2, k2) →
      ∃ s, Sol (9 * i + j) b s := by
  intro fuel
  induction fuel with
  | zero =>
    intro i j b k b2 k2 _ h
    exact absurd h (by simp [backAux])
  | succ fuel ih =>
    intro i j b k b2 k2 hj h
    obtain ⟨i2, j2, _, hidx, hj2, heq⟩ := backAux_succ sh fuel i j b k hj
    rw [heq] at h
    rw [← hidx]
    by_cases hv : is_sudoku_valid b = false
    · rw [if_pos hv] at h
      injection h with h2
      exact absurd (congrArg (fun x => x.1) h2) (by simp)
    · rw [if_neg hv] at h
      have hvT : is_sudoku_valid b = true := by
        rcases hb : is_sudoku_valid b with _ | _
        · exact absurd hb hv
        · rfl
      by_cases h9 : 9 ≤ i2
      · refine ⟨b, fun q hq => rfl, fun q hq hnq => rfl, fun q hq heq2 => ?_, hvT⟩
        have := idx_le q
        omega
      · rw [if_neg h9] at h
        have hrecS : ∀ (b3 : Board) (k3 : Nat) (b4 : Board) (k4 : Nat),
            backAux sh fuel i2 (j2 + 1) b3 k3 = some (true, b4, k4) →
            ∃ s, Sol (9 * i2 + j2 + 1) b3 s := by
          intro b3 k3 b4 k4 hh
          have := ih i2 (j2 + 1) b3 k3 b4 k4 (by omega) hh
          rwa [show 9 * i2 + (j2 + 1) = 9 * i2 + j2 + 1 by omega] at this
        by_cases hne : valN b i2 j2 ≠ EMPTY_VAL
        · rw [if_pos hne] at h
          obtain ⟨s, hs⟩ := hrecS b k b2 k2 h
          have hfp : valB b (⟨i2, by omega⟩, ⟨j2, hj2⟩) ≠ EMPTY_VAL := by
            rw [valB_eq_valN]
            exact hne
          exact ⟨s, sol_step_of_filled (idx_pos_eq (by omega) hj2) hfp hs⟩
        · rw [if_neg hne] at h
          push_neg at hne
          have hvals : ∀ v ∈ sh k, 1 ≤ v ∧ v ≤ 9 := fun v hvm =>
            mem_L19.mp ((hsh k).mem_iff.mp hvm)
          exact backTry_sound (by omega) hj2 hrecS
            (fun b3 k3 r3 b4 k4 hh =>
              backAux_restore sh fuel i2 (j2 + 1) b3 k3 r3 b4 k4 (by omega) hh)
            (sh k) hvals b (k + 1) b2 k2 hne h

lemma backTry_complete {rec : Board → Nat → Option (Bool × Board × Nat)} {i j : Nat}
    (hi : i < 9) (hj : j < 9) {b s : Board} {v : Int}
    (hE : valN b i j = EMPTY_VAL)
    (hsol : Sol (9 * i + j + 1) (setVal b i j v) s)
    (hrecI : ∀ b3 k3, (rec b3 k3).isSome = true)
    (hrecR : ∀ b3 k3 r3 b4 k4, rec b3 k3 = some (r3, b4, k4) → b4 = b3)
    (hrecC : ∀ b3 k3 s3, Sol (9 * i + j + 1) b3 s3 →
      ∃ b4 k4, rec b3 k3 = some (true, b4, k4)) :
    ∀ (vs : List Int) (k : Nat), v ∈ vs →
      ∃ b2 k2, backTry rec i j vs b k = some (true, b2, k2) := by
  intro vs
  induction vs with
  | nil =>
    intro k hv
    exact absurd hv (List.not_mem_nil v)
  | cons w vs ih =>
    intro k hv
    rw [backTry]
    rcases hr : rec (setVal b i j w) k with _ | ⟨r3, b3, k3⟩
    · have := hrecI (setVal b i j w) k
      rw [hr] at this
      exact absurd this (by simp)
    · rcases r3 with _ | _
      · have hb3 : b3 = setVal b i j w := hrecR _ _ _ _ _ hr
        have hwv : w ≠ v := by
          intro hwv
          subst hwv
          obtain ⟨b4, k4, h4⟩ := hrecC (setVal b i j w) k s hsol
          rw [hr] at h4
          exact absurd (congrArg (fun x => (Option.getD x (false, b, k)).1) h4) (by simp)
        have hback : setVal b3 i j EMPTY_VAL = b := by
          rw [hb3, setVal_setVal]
          exact setVal_eq_self hi hj hE
        simp only
        rw [hback]
        exact ih k3 (by
          rcases List.mem_cons.mp hv with h5 | h5
          · exact absurd h5.symm hwv
          · exact h5)
      · exact ⟨setVal b3 i j EMPTY_VAL, k3, by simp⟩

lemma backAux_complete (sh : Nat → List Int) (hsh : ∀ k, (sh k).Perm L19) :
    ∀ (fuel i j : Nat) (b : Board) (k : Nat) (s : Board),
      j ≤ 9 → 9 * i + j ≤ 81 → 83 ≤ fuel + (9 * i + j) →
      Sol (9 * i + j) b s →
      ∃ b2 k2, backAux sh fuel i j b k = some (true, b2, k2) := by
  intro fuel
  induction fuel with
  | zero =>
    intro i j b k s hj hle hf _
    omega
  | succ fuel ih =>
    intro i j b k s hj hle hf hsol
    obtain ⟨i2, j2, _, hidx, hj2, heq⟩ := backAux_succ sh fuel i j b k hj
    rw [heq]
    rw [← hidx] at hsol hle hf
    have hvT : is_sudoku_valid b = true := sol_valid_from hsol
    rw [hvT]
    rw [if_neg (by simp)]
    by_cases h9 : 9 ≤ i2
    · exact ⟨b, k, by rw [if_pos h9]⟩
    · rw [if_neg h9]
      have hi2 : i2 < 9 := by omega
      have hrecI : ∀ (b3 : Board) (k3 : Nat),
          (backAux sh fuel i2 (j2 + 1) b3 k3).isSome = true :=
        fun b3 k3 => backAux_isSome sh fuel i2 (j2 + 1) b3 k3 (by omega) (by omega) (by omega)
      have hrecR : ∀ (b3 : Board) (k3 : Nat) (r3 : Bool) (b4 : Board) (k4 : Nat),
          backAux sh fuel i2 (j2 + 1) b3 k3 = some (r3, b4, k4) → b4 = b3 :=
        fun b3 k3 r3 b4 k4 hh => backAux_restore sh fuel i2 (j2 + 1) b3 k3 r3 b4 k4 (by omega) hh
      have hrecC : ∀ (b3 : Board) (k3 : Nat) (s3 : Board),
          Sol (9 * i2 + j2 + 1) b3 s3 →
          ∃ b4 k4, backAux sh fuel i2 (j2 + 1) b3 k3 = some (true, b4, k4) := by
        intro b3 k3 s3 hs3
        exact ih i2 (j2 + 1) b3 k3 s3 (by omega) (by omega) (by omega)
          (by rwa [show 9 * i2 + (j2 + 1) = 9 * i2 + j2 + 1 by omega])
      by_cases hne : valN b i2 j2 ≠ EMPTY_VAL
      · rw [if_pos hne]
        have hfp : valB b (⟨i2, hi2⟩, ⟨j2, hj2⟩) ≠ EMPTY_VAL := by
          rw [valB_eq_valN]
          exact hne
        exact hrecC b k s (sol_filled_step (idx_pos_eq hi2 hj2) hfp hsol)
      · rw [if_neg hne]
        push_neg at hne
        have hEp : valB b (⟨i2, hi2⟩, ⟨j2, hj2⟩) = EMPTY_VAL := by
          rw [valB_eq_valN]
          exact hne
        obtain ⟨hs1, hs2, hs3, hs4⟩ := hsol
        have hvb : 1 ≤ valB s (⟨i2, hi2⟩, ⟨j2, hj2⟩) ∧
            valB s (⟨i2, hi2⟩, ⟨j2, hj2⟩) ≤ 9 :=
          hs3 _ (by rw [idx_pos_eq hi2 hj2]) hEp
        have hmem : valB s (⟨i2, hi2⟩, ⟨j2, hj2⟩) ∈ sh k :=
          (hsh k).mem_iff.mpr (mem_L19.mpr hvb)
        have hsol2 : Sol (9 * i2 + j2 + 1)
            (setVal b i2 j2 (valB s (⟨i2, hi2⟩, ⟨j2, hj2⟩))) s := by
          refine ⟨fun q hq => ?_, fun q hq hnq => ?_, fun q hq heq2 => ?_, hs4⟩
          · by_cases hqe : idx q = 9 * i2 + j2
            · have hq2 : q = (⟨i2, hi2⟩, ⟨j2, hj2⟩) := idx_eq_pos hi2 hj2 hqe
              rw [hq2, valB_setVal_self]
            · rw [valB_setVal_of_idx_ne b _ hqe]
              exact hs1 q (by omega)
          · have hqe : idx q ≠ 9 * i2 + j2 := by omega
            rw [valB_setVal_of_idx_ne b _ hqe] at hnq ⊢
            exact hs2 q (by omega) hnq
          · have hqe : idx q ≠ 9 * i2 + j2 := by omega
            rw [valB_setVal_of_idx_ne b _ hqe] at heq2
            exact hs3 q (by omega) heq2
        exact backTry_complete hi2 hj2 hne hsol2 hrecI hrecR hrecC (sh k) (k + 1) hmem

/-- Claim C1: for every board state, `is_possible_sudoku_table` returns
true if and only if there is an assignment of digits `1..9` to the
currently empty cells such that the fully filled board has no duplicate
in any row, column or `3x3` block.  (The `random.shuffle` calls are
modelled by the oracle `sh`, required to return permutations of
`[1..9]`.) -/
theorem solvable_iff_completion_exists (sh : Nat → List Int)
    (hsh : ∀ k, (sh k).Perm L19) (b : Board) :
    is_possible_sudoku_table sh b = true ↔
      ∃ s : Board,
        (∀ p : Fin 9 × Fin 9, valB b p ≠ EMPTY_VAL → valB s p = valB b p) ∧
        (∀ p : Fin 9 × Fin 9, valB b p = EMPTY_VAL → 1 ≤ valB s p ∧ valB s p ≤ 9) ∧
        PairOk s := by
  unfold is_possible_sudoku_table
  rcases hres : backAux sh 100 0 0 b 0 with _ | ⟨r, b2, k2⟩
  · have := backAux_isSome sh 100 0 0 b 0 (by omega) (by omega) (by omega)
    rw [hres] at this
    exact absurd this (by simp)
  · rcases r with _ | _
    · simp only
      constructor
      · intro h
        exact absurd h (by simp)
      · rintro ⟨s, h1, h2, h3⟩
        have hsol : Sol 0 b s :=
          ⟨fun q hq => by omega, fun q _ hnq => h1 q hnq, fun q _ heq => h2 q heq,
            (valid_iff_pairOk s).mpr h3⟩
        obtain ⟨b4, k4, h4⟩ := backAux_complete sh hsh 100 0 0 b 0 s
          (by omega) (by omega) (by omega) hsol
        rw [hres] at h4
        exact absurd (congrArg (fun x => (Option.getD x (false, b, 0)).1) h4) (by simp)
    · simp only
      constructor
      · intro _
        obtain ⟨s, hs1, hs2, hs3, hs4⟩ := backAux_sound sh hsh 100 0 0 b 0 b2 k2
          (by omega) hres
        exact ⟨s, fun p hp => hs2 p (by omega) hp, fun p hp => hs3 p (by omega) hp,
          (valid_iff_pairOk s).mp hs4⟩
      · intro _
        trivial

/-- Claim C1 witness: instantiated with the identity shuffle oracle
(each hypothesis discharged at a concrete input). -/
theorem solvable_iff_completion_exists_witness :
    is_possible_sudoku_table shId emptyBoard = true ↔
      ∃ s : Board,
        (∀ p : Fin 9 × Fin 9, valB emptyBoard p ≠ EMPTY_VAL → valB s p = valB emptyBoard p) ∧
        (∀ p : Fin 9 × Fin 9, valB emptyBoard p = EMPTY_VAL → 1 ≤ valB s p ∧ valB s p ≤ 9) ∧
        PairOk s :=
  solvable_iff_completion_exists shId (fun _ => List.Perm.refl _) emptyBoard

/-- Claim C2: `is_sudoku_valid` returns true exactly when no two distinct
non-empty cells that share a row, a column or the same block (block index
`(row / 3) * 3 + col / 3`) hold the same value; empty cells are ignored. -/
theorem valid_iff_no_duplicates (b : Board) :
    is_sudoku_valid b = true ↔
      ∀ p q : Fin 9 × Fin 9, p ≠ q →
        (p.1 = q.1 ∨ p.2 = q.2 ∨
          p.1.val / 3 * 3 + p.2.val / 3 = q.1.val / 3 * 3 + q.2.val / 3) →
        (b p.1 p.2).val ≠ EMPTY_VAL → (b q.1 q.2).val ≠ EMPTY_VAL →
        (b p.1 p.2).val ≠ (b q.1 q.2).val :=
  valid_iff_pairOk b

/-- Claim C3: whatever the solvability search returns, the board it
hands back is exactly the board it was given: every cell value is
restored (the search is non-destructive). -/
theorem check_restores_board (sh : Nat → List Int) (fuel : Nat) (b : Board)
    (k : Nat) (r : Bool) (b2 : Board) (k2 : Nat)
    (h : backAux sh fuel 0 0 b k = some (r, b2, k2)) : b2 = b :=
  backAux_restore sh fuel 0 0 b k r b2 k2 (by omega) h

/-- Claim C3 witness: on the concrete inconsistent board `bInv` the
search returns, and the returned board is `bInv` itself. -/
theorem check_restores_board_witness :
    ((backAux shId 100 0 0 bInv 0).map fun x => x.2.1) = some bInv := by
  rcases hres : backAux shId 100 0 0 bInv 0 with _ | ⟨r, b2, k2⟩
  · have h1 : ((backAux shId 100 0 0 bInv 0).map fun x => (x.1, x.2.2)) =
        some (false, 0) := by decide
    rw [hres] at h1
    exact absurd h1 (by simp)
  · rw [check_restores_board shId 100 bInv 0 r b2 k2 hres]
    rfl

/-! ### The generation search -/

lemma genTry_isSome {rec : Board → Nat → Option (Bool × Board × Nat)} {i j : Nat}
    (hrec : ∀ b k, (rec b k).isSome = true) :
    ∀ (vs : List Int) (b : Board) (k : Nat), (genTry rec i j vs b k).isSome = true := by
  intro vs
  induction vs with
  | nil => intro b k; simp [genTry]
  | cons v vs ih =>
    intro b k
    rw [genTry]
    rcases hr : rec (setVal b i j v) k with _ | ⟨r3, b3, k3⟩
    · have := hrec (setVal b i j v) k
      rw [hr] at this
      exact absurd this (by simp)
    · rcases r3 with _ | _
      · exact ih (setVal b3 i j EMPTY_VAL) k3
      · simp

lemma genTry_below {rec : Board → Nat → Option (Bool × Board × Nat)} {i j : Nat}
    (hrecB : ∀ b k r b2 k2, rec b k = some (r, b2, k2) →
      ∀ p : Fin 9 × Fin 9, idx p < 9 * i + j + 1 → valB b2 p = valB b p) :
    ∀ (vs : List Int) (b : Board) (k : Nat) (r : Bool) (b2 : Board) (k2 : Nat),
      genTry rec i j vs b k = some (r, b2, k2) →
      ∀ p : Fin 9 × Fin 9, idx p < 9 * i + j → valB b2 p = valB b p := by
  intro vs
  induction vs with
  | nil =>
    intro b k r b2 k2 h p hp
    rw [genTry] at h
    injection h with h2
    have hb : b2 = b := (congrArg (fun x => x.2.1) h2).symm
    rw [hb]
  | cons v vs ih =>
    intro b k r b2 k2 h p hp
    rw [genTry] at h
    rcases hr : rec (setVal b i j v) k with _ | ⟨r3, b3, k3⟩
    · rw [hr] at h
      exact absurd h (by simp)
    · rw [hr] at h
      have hpn : idx p ≠ 9 * i + j := by omega
      have hb3 : valB b3 p = valB b p := by
        rw [hrecB _ _ _ _ _ hr p (by omega), valB_setVal_of_idx_ne b v hpn]
      rcases r3 with _ | _
      · simp only at h
        rw [ih (setVal b3 i j EMPTY_VAL) k3 r b2 k2 h p hp,
          valB_setVal_of_idx_ne b3 EMPTY_VAL hpn, hb3]
      · simp only at h
        injection h with h2
        have hb : b2 = b3 := (congrArg (fun x => x.2.1) h2).symm
        rw [hb, hb3]

lemma genTry_restore_false {rec : Board → Nat → Option (Bool × Board × Nat)} {i j : Nat}
    (hi : i < 9) (hj : j < 9)
    (hrecRF : ∀ b3 k3 b4 k4,
      (∀ p : Fin 9 × Fin 9, 9 * i + j + 1 ≤ idx p → valB b3 p = EMPTY_VAL) →
      rec b3 k3 = some (false, b4, k4) → b4 = b3) :
    ∀ (vs : List Int) (b : Board) (k : Nat) (b2 : Board) (k2 : Nat),
      (∀ p : Fin 9 × Fin 9, 9 * i + j ≤ idx p → valB b p = EMPTY_VAL) →
      genTry rec i j vs b k = some (false, b2, k2) → b2 = b := by
  intro vs
  induction vs with
  | nil =>
    intro b k b2 k2 _ h
    rw [genTry] at h
    injection h with h2
    exact (congrArg (fun x => x.2.1) h2).symm
  | cons v vs ih =>
    intro b k b2 k2 hbE h
    have hE : valN b i j = EMPTY_VAL := by
      rw [valN_lt b hi hj, show (b ⟨i, hi⟩ ⟨j, hj⟩).val = valB b (⟨i, hi⟩, ⟨j, hj⟩) from rfl]
      exact hbE _ (by rw [idx_pos_eq hi hj])
    rw [genTry] at h
    rcases hr : rec (setVal b i j v) k with _ | ⟨r3, b3, k3⟩
    · rw [hr] at h
      exact absurd h (by simp)
    · rw [hr] at h
      rcases r3 with _ | _
      · have hb3 : b3 = setVal b i j v := by
          refine hrecRF _ _ _ _ ?_ hr
          intro p hp
          rw [valB_setVal_of_idx_ne b v (by omega)]
          exact hbE p (by omega)
        simp only at h
        have hback : setVal b3 i j EMPTY_VAL = b := by
          rw [hb3, setVal_setVal]
          exact setVal_eq_self hi hj hE
        rw [hback] at h
        exact ih b k3 b2 k2 hbE h
      · simp only at h
        exact absurd (congrArg (fun x => (Option.getD x (false, b, 0)).1) h) (by simp)

lemma genTry_sound {rec : Board → Nat → Option (Bool × Board × Nat)} {i j : Nat}
    (hi : i < 9) (hj : j < 9)
    (hrecS : ∀ b3 k3 b4 k4, rec b3 k3 = some (true, b4, k4) →
      (∀ p : Fin 9 × Fin 9, 9 * i + j + 1 ≤ idx p →
        1 ≤ valB b4 p ∧ valB b4 p ≤ 9) ∧ is_sudoku_valid b4 = true)
    (hrecB : ∀ b3 k3 r3 b4 k4, rec b3 k3 = some (r3, b4, k4) →
      ∀ p : Fin 9 × Fin 9, idx p < 9 * i + j + 1 → valB b4 p = valB b3 p) :
    ∀ (vs : List Int), (∀ v ∈ vs, 1 ≤ v ∧ v ≤ 9) →
    ∀ (b : Board) (k : Nat) (b2 : Board) (k2 : Nat),
      genTry rec i j vs b k = some (true, b2, k2) →
      (∀ p : Fin 9 × Fin 9, 9 * i + j ≤ idx p →
        1 ≤ valB b2 p ∧ valB b2 p ≤ 9) ∧ is_sudoku_valid b2 = true := by
  intro vs
  induction vs with
  | nil =>
    intro _ b k b2 k2 h
    rw [genTry] at h
    injection h with h2
    exact absurd (congrArg (fun x => x.1) h2) (by simp)
  | cons v vs ih =>
    intro hvs b k b2 k2 h
    rw [genTry] at h
    rcases hr : rec (setVal b i j v) k with _ | ⟨r3, b3, k3⟩
    · rw [hr] at h
      exact absurd h (by simp)
    · rw [hr] at h
      rcases r3 with _ | _
      · simp only at h
        exact ih (fun w hw => hvs w (List.mem_cons_of_mem _ hw))
          (setVal b3 i j EMPTY_VAL) k3 b2 k2 h
      · simp only at h
        injection h with h2
        have hb2 : b2 = b3 := (congrArg (fun x => x.2.1) h2).symm
        subst hb2
        obtain ⟨hS1, hS2⟩ := hrecS _ _ _ _ hr
        refine ⟨fun p hp => ?_, hS2⟩
        by_cases hpe : idx p = 9 * i + j
        · have hp2 : p = (⟨i, hi⟩, ⟨j, hj⟩) := idx_eq_pos hi hj hpe
          have : valB b2 p = v := by
            rw [hrecB _ _ _ _ _ hr p (by omega), hp2]
            exact valB_setVal_self b hi hj v
          rw [this]
          exact hvs v (List.mem_cons_self v vs)
        · exact hS1 p (by omega)

lemma genTry_complete {rec : Board → Nat → Option (Bool × Board × Nat)} {i j : Nat}
    (hi : i < 9) (hj : j < 9) {b : Board} {v : Int}
    (hbE : ∀ p : Fin 9 × Fin 9, 9 * i + j ≤ idx p → valB b p = EMPTY_VAL)
    (hrecI : ∀ b3 k3, (rec b3 k3).isSome = true)
    (hrecRF : ∀ b3 k3 b4 k4,
      (∀ p : Fin 9 × Fin 9, 9 * i + j + 1 ≤ idx p → valB b3 p = EMPTY_VAL) →
      rec b3 k3 = some (false, b4, k4) → b4 = b3)
    (hv : ∀ k3, ∃ b4 k4, rec (setVal b i j v) k3 = some (true, b4, k4)) :
    ∀ (vs : List Int) (k : Nat), v ∈ vs →
      ∃ b2 k2, genTry rec i j vs b k = some (true, b2, k2) := by
  intro vs
  induction vs with
  | nil =>
    intro k hvm
    exact absurd hvm (List.not_mem_nil v)
  | cons w vs ih =>
    intro k hvm
    have hE : valN b i j = EMPTY_VAL := by
      rw [valN_lt b hi hj, show (b ⟨i, hi⟩ ⟨j, hj⟩).val = valB b (⟨i, hi⟩, ⟨j, hj⟩) from rfl]
      exact hbE _ (by rw [idx_pos_eq hi hj])
    rw [genTry]
    rcases hr : rec (setVal b i j w) k with _ | ⟨r3, b3, k3⟩
    · have := hrecI (setVal b i j w) k
      rw [hr] at this
      exact absurd this (by simp)
    · rcases r3 with _ | _
      · have hwv : w ≠ v := by
          intro hwv
          subst hwv
          obtain ⟨b4, k4, h4⟩ := hv k
          rw [hr] at h4
          exact absurd (congrArg (fun x => (Option.getD x (false, b, k)).1) h4) (by simp)
        have hb3 : b3 = setVal b i j w := by
          refine hrecRF _ _ _ _ ?_ hr
          intro p hp
          rw [valB_setVal_of_idx_ne b w (by omega)]
          exact hbE p (by omega)
        have hback : setVal b3 i j EMPTY_VAL = b := by
          rw [hb3, setVal_setVal]
          exact setVal_eq_self hi hj hE
        simp only
        rw [hback]
        exact ih k3 (by
          rcases List.mem_cons.mp hvm with h5 | h5
          · exact absurd h5.symm hwv
          · exact h5)
      · exact ⟨b3, k3, by simp⟩

lemma genAux_isSome (sh : Nat → List Int) :
    ∀ (fuel i j : Nat) (b : Board) (k : Nat),
      j ≤ 9 → 9 * i + j ≤ 81 → 83 ≤ fuel + (9 * i + j) →
      (genAux sh fuel i j b k).isSome = true := by
  intro fuel
  induction fuel with
  | zero =>
    intro i j b k hj hle hf
    omega
  | succ fuel ih =>
    intro i j b k hj hle hf
    obtain ⟨i2, j2, _, hidx, hj2, heq⟩ := genAux_succ sh fuel i j b k hj
    rw [heq]
    by_cases hv : is_sudoku_valid b = false
    · simp [hv]
    · rw [if_neg hv]
      by_cases h9 : 9 ≤ i2
      · simp [h9]
      · rw [if_neg h9]
        exact genTry_isSome
          (fun b3 k3 => ih i2 (j2 + 1) b3 k3 (by omega) (by omega) (by omega))
          (sh k) b (k + 1)

lemma genAux_below (sh : Nat → List Int) :
    ∀ (fuel i j : Nat) (b : Board) (k : Nat) (r : Bool) (b2 : Board) (k2 : Nat),
      j ≤ 9 → genAux sh fuel i j b k = some (r, b2, k2) →
      ∀ p : Fin 9 × Fin 9, idx p < 9 * i + j → valB b2 p = valB b p := by
  intro fuel
  induction fuel with
  | zero =>
    intro i j b k r b2 k2 _ h
    exact absurd h (by simp [genAux])
  | succ fuel ih =>
    intro i j b k r b2 k2 hj h
    obtain ⟨i2, j2, _, hidx, hj2, heq⟩ := genAux_succ sh fuel i j b k hj
    rw [heq] at h
    rw [← hidx]
    by_cases hv : is_sudoku_valid b = false
    · rw [if_pos hv] at h
      injection h with h2
      have hb : b2 = b := (congrArg (fun x => x.2.1) h2).symm
      intro p _
      rw [hb]
    · rw [if_neg hv] at h
      by_cases h9 : 9 ≤ i2
      · rw [if_pos h9] at h
        injection h with h2
        have hb : b2 = b := (congrArg (fun x => x.2.1) h2).symm
        intro p _
        rw [hb]
      · rw [if_neg h9] at h
        refine genTry_below ?_ (sh k) b (k + 1) r b2 k2 h
        intro b3 k3 r3 b4 k4 hh p hp
        exact ih i2 (j2 + 1) b3 k3 r3 b4 k4 (by omega) hh p (by omega)

lemma genAux_restore_false (sh : Nat → List Int) :
    ∀ (fuel i j : Nat) (b : Board) (k : Nat) (b2 : Board) (k2 : Nat),
      j ≤ 9 →
      (∀ p : Fin 9 × Fin 9, 9 * i + j ≤ idx p → valB b p = EMPTY_VAL) →
      genAux sh fuel i j b k = some (false, b2, k2) → b2 = b := by
  intro fuel
  induction fuel with
  | zero =>
    intro i j b k b2 k2 _ _ h
    exact absurd h (by simp [genAux])
  | succ fuel ih =>
    intro i j b k b2 k2 hj hbE h
    obtain ⟨i2, j2, _, hidx, hj2, heq⟩ := genAux_succ sh fuel i j b k hj
    rw [heq] at h
    rw [← hidx] at hbE
    by_cases hv : is_sudoku_valid b = false
    · rw [if_pos hv] at h
      injection h with h2
      exact (congrArg (fun x => x.2.1) h2).symm
    · rw [if_neg hv] at h
      by_cases h9 : 9 ≤ i2
      · rw [if_pos h9] at h
        injection h with h2
        exact absurd (congrArg (fun x => x.1) h2) (by simp)
      · rw [if_neg h9] at h
        refine genTry_restore_false (by omega) hj2 ?_ (sh k) b (k + 1) b2 k2 hbE h
        intro b3 k3 b4 k4 hbE3 hh
        exact ih i2 (j2 + 1) b3 k3 b4 k4 (by omega)
          (fun p hp => hbE3 p (by omega)) hh

lemma genAux_sound (sh : Nat → List Int) (hsh : ∀ k, (sh k).Perm L19) :
    ∀ (fuel i j : Nat) (b : Board) (k : Nat) (b2 : Board) (k2 : Nat),
      j ≤ 9 → genAux sh fuel i j b k = some (true, b2, k2) →
      (∀ p : Fin 9 × Fin 9, 9 * i + j ≤ idx p →
        1 ≤ valB b2 p ∧ valB b2 p ≤ 9) ∧ is_sudoku_valid b2 = true := by
  intro fuel
  induction fuel with
  | zero =>
    intro i j b k b2 k2 _ h
    exact absurd h (by simp [genAux])
  | succ fuel ih =>
    intro i j b k b2 k2 hj h
    obtain ⟨i2, j2, _, hidx, hj2, heq⟩ := genAux_succ sh fuel i j b k hj
    rw [heq] at h
    rw [← hidx]
    by_cases hv : is_sudoku_valid b = false
    · rw [if_pos hv] at h
      injection h with h2
      exact absurd (congrArg (fun x => x.1) h2) (by simp)
    · rw [if_neg hv] at h
      have hvT : is_sudoku_valid b = true := by
        rcases hb : is_sudoku_valid b with _ | _
        · exact absurd hb hv
        · rfl
      by_cases h9 : 9 ≤ i2
      · rw [if_pos h9] at h
        injection h with h2
        have hb : b2 = b := (congrArg (fun x => x.2.1) h2).symm
        subst hb
        refine ⟨fun p hp => ?_, hvT⟩
        have := idx_le p
        omega
      · rw [if_neg h9] at h
        have hvals : ∀ v ∈ sh k, 1 ≤ v ∧ v ≤ 9 := fun v hvm =>
          mem_L19.mp ((hsh k).mem_iff.mp hvm)
        refine genTry_sound (by omega) hj2 ?_ ?_ (sh k) hvals b (k + 1) b2 k2 h
        · intro b3 k3 b4 k4 hh
          have := ih i2 (j2 + 1) b3 k3 b4 k4 (by omega) hh
          exact ⟨fun p hp => this.1 p (by omega), this.2⟩
        · intro b3 k3 r3 b4 k4 hh p hp
          exact genAux_below sh fuel i2 (j2 + 1) b3 k3 r3 b4 k4 (by omega) hh p (by omega)

lemma genAux_complete (sh : Nat → List Int) (hsh : ∀ k, (sh k).Perm L19)
    (s : Board) (hsV : ∀ p : Fin 9 × Fin 9, 1 ≤ valB s p ∧ valB s p ≤ 9)
    (hsOk : is_sudoku_valid s = true) :
    ∀ (fuel i j : Nat) (b : Board) (k : Nat),
      j ≤ 9 → 9 * i + j ≤ 81 → 83 ≤ fuel + (9 * i + j) →
      (∀ p : Fin 9 × Fin 9, 9 * i + j ≤ idx p → valB b p = EMPTY_VAL) →
      (∀ p : Fin 9 × Fin 9, idx p < 9 * i + j → valB b p = valB s p) →
      ∃ b2 k2, genAux sh fuel i j b k = some (true, b2, k2) := by
  intro fuel
  induction fuel with
  | zero =>
    intro i j b k hj hle hf _ _
    omega
  | succ fuel ih =>
    intro i j b k hj hle hf hbE hbS
    obtain ⟨i2, j2, _, hidx, hj2, heq⟩ := genAux_succ sh fuel i j b k hj
    rw [heq]
    rw [← hidx] at hle hf hbE hbS
    have hvT : is_sudoku_valid b = true := by
      refine valid_of_sub ?_ hsOk
      intro p hp
      by_cases hn : idx p < 9 * i2 + j2
      · exact hbS p hn
      · exact absurd (hbE p (by omega)) hp
    rw [hvT]
    rw [if_neg (by simp)]
    by_cases h9 : 9 ≤ i2
    · exact ⟨b, k, by rw [if_pos h9]⟩
    · rw [if_neg h9]
      have hi2 : i2 < 9 := by omega
      have hv : 1 ≤ valB s (⟨i2, hi2⟩, ⟨j2, hj2⟩) ∧ valB s (⟨i2, hi2⟩, ⟨j2, hj2⟩) ≤ 9 :=
        hsV _
      have hmem : valB s (⟨i2, hi2⟩, ⟨j2, hj2⟩) ∈ sh k :=
        (hsh k).mem_iff.mpr (mem_L19.mpr hv)
      refine genTry_complete hi2 hj2 hbE
        (fun b3 k3 => genAux_isSome sh fuel i2 (j2 + 1) b3 k3 (by omega) (by omega) (by omega))
        (fun b3 k3 b4 k4 hbE3 hh => genAux_restore_false sh fuel i2 (j2 + 1) b3 k3 b4 k4
          (by omega) (fun p hp => hbE3 p (by omega)) hh)
        ?_ (sh k) (k + 1) hmem
      intro k3
      refine ih i2 (j2 + 1) (setVal b i2 j2 (valB s (⟨i2, hi2⟩, ⟨j2, hj2⟩))) k3
        (by omega) (by omega) (by omega) ?_ ?_
      · intro p hp
        rw [valB_setVal_of_idx_ne b _ (by omega)]
        exact hbE p (by omega)
      · intro p hp
        by_cases hpe : idx p = 9 * i2 + j2
        · have hp2 : p = (⟨i2, hi2⟩, ⟨j2, hj2⟩) := idx_eq_pos hi2 hj2 hpe
          rw [hp2, valB_setVal_self]
        · rw [valB_setVal_of_idx_ne b _ hpe]
          exact hbS p (by omega)

lemma ne_empty_of_bounds {v : Int} (h1 : 1 ≤ v) : v ≠ EMPTY_VAL := by
  unfold EMPTY_VAL
  omega

lemma icc19_card : (Finset.Icc (1 : Int) 9).card = 9 := by
  rw [Int.card_Icc]
  rfl

lemma unit_image_eq {b2 : Board} (s : Finset (Fin 9 × Fin 9)) (hcard : s.card = 9)
    (hinj : Set.InjOn (valB b2) s)
    (hbound : ∀ p ∈ s, 1 ≤ valB b2 p ∧ valB b2 p ≤ 9) :
    s.image (valB b2) = Finset.Icc (1 : Int) 9 := by
  refine Finset.eq_of_subset_of_card_le ?_ ?_
  · intro v hv
    rw [Finset.mem_image] at hv
    obtain ⟨p, hp, rfl⟩ := hv
    exact Finset.mem_Icc.mpr (hbound p hp)
  · rw [Finset.card_image_of_injOn hinj, hcard, icc19_card]

lemma block_card :
    ∀ t : Fin 9, (Finset.univ.filter fun p : Fin 9 × Fin 9 => blockIdxF p = t).card = 9 := by
  decide

lemma row_as_image (b2 : Board) (r : Fin 9) :
    Finset.image (fun c : Fin 9 => valB b2 (r, c)) Finset.univ =
      (Finset.univ.image fun c : Fin 9 => ((r, c) : Fin 9 × Fin 9)).image (valB b2) := by
  rw [Finset.image_image]
  rfl

lemma col_as_image (b2 : Board) (c : Fin 9) :
    Finset.image (fun r : Fin 9 => valB b2 (r, c)) Finset.univ =
      (Finset.univ.image fun r : Fin 9 => ((r, c) : Fin 9 × Fin 9)).image (valB b2) := by
  rw [Finset.image_image]
  rfl

lemma units_exact {b2 : Board} (hb : ∀ p : Fin 9 × Fin 9, 1 ≤ valB b2 p ∧ valB b2 p ≤ 9)
    (hp : PairOk b2) :
    (∀ r : Fin 9, Finset.image (fun c : Fin 9 => valB b2 (r, c)) Finset.univ =
      Finset.Icc (1 : Int) 9) ∧
    (∀ c : Fin 9, Finset.image (fun r : Fin 9 => valB b2 (r, c)) Finset.univ =
      Finset.Icc (1 : Int) 9) ∧
    (∀ t : Fin 9, (Finset.univ.filter fun p : Fin 9 × Fin 9 => blockIdxF p = t).image
      (valB b2) = Finset.Icc (1 : Int) 9) := by
  have hne : ∀ p : Fin 9 × Fin 9, valB b2 p ≠ EMPTY_VAL :=
    fun p => ne_empty_of_bounds (hb p).1
  refine ⟨fun r => ?_, fun c => ?_, fun t => ?_⟩
  · rw [row_as_image]
    refine unit_image_eq _ ?_ ?_ (fun p _ => hb p)
    · rw [Finset.card_image_of_injective _ (fun c1 c2 hc => (Prod.mk.injEq _ _ _ _).mp hc |>.2)]
      simp
    · intro p hps q hqs heq
      simp only [Finset.coe_image, Set.mem_image] at hps hqs
      obtain ⟨c1, _, rfl⟩ := hps
      obtain ⟨c2, _, rfl⟩ := hqs
      by_contra hne2
      exact hp _ _ hne2 (Or.inl rfl) (hne _) (hne _) heq
  · rw [col_as_image]
    refine unit_image_eq _ ?_ ?_ (fun p _ => hb p)
    · rw [Finset.card_image_of_injective _ (fun r1 r2 hc => (Prod.mk.injEq _ _ _ _).mp hc |>.1)]
      simp
    · intro p hps q hqs heq
      simp only [Finset.coe_image, Set.mem_image] at hps hqs
      obtain ⟨r1, _, rfl⟩ := hps
      obtain ⟨r2, _, rfl⟩ := hqs
      by_contra hne2
      exact hp _ _ hne2 (Or.inr (Or.inl rfl)) (hne _) (hne _) heq
  · refine unit_image_eq _ (block_card t) ?_ (fun p _ => hb p)
    intro p hps q hqs heq
    simp only [Finset.coe_filter, Set.mem_setOf_eq, Finset.mem_univ, true_and] at hps hqs
    by_contra hne2
    refine hp p q hne2 (Or.inr (Or.inr ?_)) (hne p) (hne q) heq
    have : blockIdxF p = blockIdxF q := hps.trans hqs.symm
    exact congrArg Fin.val this

/-- Claim C4: whenever the generation search, started on the all-empty
board, returns true, every cell of the resulting board holds a digit
`1..9` (none is empty), the board passes `is_sudoku_valid`, and every
row, column and `3x3` block holds exactly the digit set `{1..9}`. -/
theorem generation_complete_valid (sh : Nat → List Int)
    (hsh : ∀ k, (sh k).Perm L19) (b2 : Board) (k2 : Nat)
    (h : genAux sh 100 0 0 emptyBoard 0 = some (true, b2, k2)) :
    (∀ p : Fin 9 × Fin 9, valB b2 p ≠ EMPTY_VAL) ∧
    (∀ p : Fin 9 × Fin 9, 1 ≤ valB b2 p ∧ valB b2 p ≤ 9) ∧
    is_sudoku_valid b2 = true ∧
    (∀ r : Fin 9, Finset.image (fun c : Fin 9 => valB b2 (r, c)) Finset.univ =
      Finset.Icc (1 : Int) 9) ∧
    (∀ c : Fin 9, Finset.image (fun r : Fin 9 => valB b2 (r, c)) Finset.univ =
      Finset.Icc (1 : Int) 9) ∧
    (∀ t : Fin 9, (Finset.univ.filter fun p : Fin 9 × Fin 9 => blockIdxF p = t).image
      (valB b2) = Finset.Icc (1 : Int) 9) := by
  obtain ⟨hbound, hvalid⟩ := genAux_sound sh hsh 100 0 0 emptyBoard 0 b2 k2 (by omega) h
  have hb : ∀ p : Fin 9 × Fin 9, 1 ≤ valB b2 p ∧ valB b2 p ≤ 9 :=
    fun p => hbound p (by omega)
  obtain ⟨hu1, hu2, hu3⟩ := units_exact hb ((valid_iff_pairOk b2).mp hvalid)
  exact ⟨fun p => ne_empty_of_bounds (hb p).1, hb, hvalid, hu1, hu2, hu3⟩

/-- The board produced by the generation run of the C4 witness. -/
def genB : Board := ((genAux shSol 100 0 0 emptyBoard 0).getD (false, emptyBoard, 0)).2.1

/-- Claim C4 witness: the generation search run with the oracle `shSol`
(a concrete admissible sequence of shuffles) succeeds, and the resulting
board enjoys all the claimed properties. -/
theorem generation_complete_valid_witness :
    (∀ p : Fin 9 × Fin 9, valB genB p ≠ EMPTY_VAL) ∧
    (∀ p : Fin 9 × Fin 9, 1 ≤ valB genB p ∧ valB genB p ≤ 9) ∧
    is_sudoku_valid genB = true ∧
    (∀ r : Fin 9, Finset.image (fun c : Fin 9 => valB genB (r, c)) Finset.univ =
      Finset.Icc (1 : Int) 9) ∧
    (∀ c : Fin 9, Finset.image (fun r : Fin 9 => valB genB (r, c)) Finset.univ =
      Finset.Icc (1 : Int) 9) ∧
    (∀ t : Fin 9, (Finset.univ.filter fun p : Fin 9 × Fin 9 => blockIdxF p = t).image
      (valB genB) = Finset.Icc (1 : Int) 9) := by
  have h1 : (genAux shSol 100 0 0 emptyBoard 0).map (fun x => (x.1, x.2.2)) =
      some (true, 81) := by decide
  rcases hg : genAux shSol 100 0 0 emptyBoard 0 with _ | ⟨r, bb, kk⟩
  · rw [hg] at h1
    exact absurd h1 (by simp)
  · rw [hg] at h1
    simp only [Option.map, Option.some.injEq, Prod.mk.injEq] at h1
    obtain ⟨hrt, hk81⟩ := h1
    subst hrt
    subst hk81
    have hgb : genB = bb := by
      unfold genB
      rw [hg]
      rfl
    rw [← hgb] at hg
    exact generation_complete_valid shSol shSol_perm genB 81 hg

/-- Claim C5: on the all-empty board the solvability check returns true
and the generation search returns true, for every admissible shuffle
oracle. -/
theorem empty_board_search_succeeds (sh : Nat → List Int)
    (hsh : ∀ k, (sh k).Perm L19) :
    is_possible_sudoku_table sh emptyBoard = true ∧
    get_random_table sh emptyBoard = true := by
  have hsolV : ∀ p : Fin 9 × Fin 9, 1 ≤ valB solB p ∧ valB solB p ≤ 9 := by
    intro p
    have := solValN_bounds p.1.val p.2.val
    unfold valB solB
    constructor <;> simp <;> omega
  have hsolOk : is_sudoku_valid solB = true := by decide
  have hEmpty : ∀ p : Fin 9 × Fin 9, valB emptyBoard p = EMPTY_VAL := fun _ => rfl
  constructor
  · have hsol : Sol 0 emptyBoard solB :=
      ⟨fun q hq => by omega, fun q _ hnq => absurd (hEmpty q) hnq,
        fun q _ _ => hsolV q, hsolOk⟩
    obtain ⟨b2, k2, h⟩ := backAux_complete sh hsh 100 0 0 emptyBoard 0 solB
      (by omega) (by omega) (by omega) hsol
    unfold is_possible_sudoku_table
    rw [h]
  · obtain ⟨b2, k2, h⟩ := genAux_complete sh hsh solB hsolV hsolOk 100 0 0 emptyBoard 0
      (by omega) (by omega) (by omega) (fun p _ => hEmpty p) (fun p hp => by omega)
    unfold get_random_table
    rw [h]

/-- Claim C5 witness: instantiated with the identity shuffle oracle. -/
theorem empty_board_search_succeeds_witness :
    is_possible_sudoku_table shId emptyBoard = true ∧
    get_random_table shId emptyBoard = true :=
  empty_board_search_succeeds shId (fun _ => List.Perm.refl _)

/-- Claim C9: on every board state (consistent or not) both searches run
to completion within the sufficient fuel bound and return a boolean. -/
theorem searches_terminate (sh : Nat → List Int) (b : Board) (k : Nat) :
    (backAux sh 100 0 0 b k).isSome = true ∧ (genAux sh 100 0 0 b k).isSome = true :=
  ⟨backAux_isSome sh 100 0 0 b k (by omega) (by omega) (by omega),
   genAux_isSome sh 100 0 0 b k (by omega) (by omega) (by omega)⟩

/-- Erasing a chosen set of cells of a board (`m p = true` means cell
`p` is reset to `EMPTY_VAL`). -/
def maskB (b : Board) (m : Fin 9 × Fin 9 → Bool) : Board := fun i j =>
  if m (i, j) then { b i j with val := EMPTY_VAL } else b i j

/-- Claim C8: a board that passes `is_sudoku_valid` still passes it
after any subset of its cells is reset to `EMPTY_VAL`. -/
theorem valid_mono_under_erase (b : Board) (m : Fin 9 × Fin 9 → Bool)
    (h : is_sudoku_valid b = true) : is_sudoku_valid (maskB b m) = true := by
  refine valid_of_sub ?_ h
  intro p hp
  unfold valB maskB at hp ⊢
  by_cases hm : m (p.1, p.2)
  · rw [if_pos hm] at hp
    exact absurd rfl hp
  · rw [if_neg hm]

/-- A concrete erasure pattern: clear the first four rows. -/
def mTop : Fin 9 × Fin 9 → Bool := fun p => decide (p.1.val < 4)

/-- Claim C8 witness: erasing the first four rows of the concrete
complete solution keeps it valid. -/
theorem valid_mono_under_erase_witness : is_sudoku_valid (maskB solB mTop) = true :=
  valid_mono_under_erase solB mTop (by decide)

/-- Claim C10: `is_sudoku_valid` never checks the digit range: any board
whose non-empty cells (any value other than `EMPTY_VAL`, in range or
not) never collide inside a unit passes the check. -/
theorem valid_ignores_digit_range (b : Board)
    (h : ∀ p q : Fin 9 × Fin 9, p ≠ q → sameUnit p q →
      valB b p ≠ EMPTY_VAL → valB b q ≠ EMPTY_VAL → valB b p ≠ valB b q) :
    is_sudoku_valid b = true :=
  (valid_iff_pairOk b).mpr h

/-- Claim C10 witness: the board `bOut` carries the out-of-range values
`0` and `10` and still passes `is_sudoku_valid`. -/
theorem valid_ignores_digit_range_witness :
    valB bOut (⟨0, by omega⟩, ⟨0, by omega⟩) = 0 ∧
    valB bOut (⟨0, by omega⟩, ⟨1, by omega⟩) = 10 ∧
    is_sudoku_valid bOut = true :=
  ⟨by decide, by decide, valid_ignores_digit_range bOut (by decide)⟩

/-! ### The write trace of the solvability search -/

lemma valN_setVal_ne (b : Board) {i j a c : Nat} (v : Int) (h : ¬(a = i ∧ c = j)) :
    valN (setVal b i j v) a c = valN b a c := by
  unfold valN
  by_cases ha : a < 9
  · by_cases hc : c < 9
    · simp only [dif_pos ha, dif_pos hc]
      rw [show setVal b i j v ⟨a, ha⟩ ⟨c, hc⟩ = b ⟨a, ha⟩ ⟨c, hc⟩ from by
        simp only [setVal]
        rw [if_neg h]]
    · simp [dif_neg hc]
  · simp [dif_neg ha]

lemma backAuxT_succ (sh : Nat → List Int) (fuel i j : Nat) (b : Board) (k : Nat)
    (hj : j ≤ 9) :
    ∃ i2 j2, norm2 i j = (i2, j2) ∧ 9 * i2 + j2 = 9 * i + j ∧ j2 < 9 ∧
    backAuxT sh (fuel + 1) i j b k =
      (if is_sudoku_valid b = false then some (false, b, k, []) else
       if 9 ≤ i2 then some (true, b, k, []) else
       if valN b i2 j2 ≠ EMPTY_VAL then backAuxT sh fuel i2 (j2 + 1) b k
       else backTryT (backAuxT sh fuel i2 (j2 + 1)) i2 j2 (sh k) b (k + 1)) := by
  by_cases h9 : 9 ≤ j
  · refine ⟨i + 1, 0, by simp [norm2, h9], by omega, by omega, ?_⟩
    simp only [backAuxT, norm2, if_pos h9]
  · refine ⟨i, j, by simp [norm2, h9], by omega, by omega, ?_⟩
    simp only [backAuxT, norm2, if_neg h9]

lemma backTryT_erase {rec : Board → Nat → Option (Bool × Board × Nat)}
    {recT : Board → Nat → Option (Bool × Board × Nat × List Write)} {i j : Nat}
    (hrec : ∀ b k, dropTrace (recT b k) = rec b k) :
    ∀ (vs : List Int) (b : Board) (k : Nat),
      dropTrace (backTryT recT i j vs b k) = backTry rec i j vs b k := by
  intro vs
  induction vs with
  | nil => intro b k; rfl
  | cons v vs ih =>
    intro b k
    rw [backTryT, backTry]
    have hrec2 := hrec (setVal b i j v) k
    rcases hr : recT (setVal b i j v) k with _ | ⟨r3, b3, k3, tr3⟩
    · rw [hr] at hrec2
      rw [← hrec2]
      rfl
    · rw [hr] at hrec2
      rw [← hrec2]
      rcases r3 with _ | _
      · simp only [dropTrace, Option.map]
        rw [← ih (setVal b3 i j EMPTY_VAL) k3]
        rcases hr2 : backTryT recT i j vs (setVal b3 i j EMPTY_VAL) k3 with _ | ⟨r4, b4, k4, tr4⟩
        · rfl
        · rfl
      · rfl

lemma backAuxT_erase (sh : Nat → List Int) :
    ∀ (fuel i j : Nat) (b : Board) (k : Nat), j ≤ 9 →
      dropTrace (backAuxT sh fuel i j b k) = backAux sh fuel i j b k := by
  intro fuel
  induction fuel with
  | zero =>
    intro i j b k _
    rfl
  | succ fuel ih =>
    intro i j b k hj
    obtain ⟨i2, j2, hn, hidx, hj2, heqT⟩ := backAuxT_succ sh fuel i j b k hj
    obtain ⟨i2b, j2b, hnb, _, _, heqB⟩ := backAux_succ sh fuel i j b k hj
    rw [hn] at hnb
    have hi2 : i2 = i2b := congrArg (fun x => x.1) hnb
    have hj2b : j2 = j2b := congrArg (fun x => x.2) hnb
    rw [← hi2, ← hj2b] at heqB
    rw [heqT, heqB]
    by_cases hv : is_sudoku_valid b = false
    · rw [if_pos hv, if_pos hv]
      rfl
    · rw [if_neg hv, if_neg hv]
      by_cases h9 : 9 ≤ i2
      · rw [if_pos h9, if_pos h9]
        rfl
      · rw [if_neg h9, if_neg h9]
        by_cases hne : valN b i2 j2 ≠ EMPTY_VAL
        · rw [if_pos hne, if_pos hne]
          exact ih i2 (j2 + 1) b k (by omega)
        · rw [if_neg hne, if_neg hne]
          exact backTryT_erase (fun b3 k3 => ih i2 (j2 + 1) b3 k3 (by omega)) (sh k) b (k + 1)

lemma backTryT_writes {recT : Board → Nat → Option (Bool × Board × Nat × List Write)}
    {i j : Nat} (hi : i < 9) (hj : j < 9)
    (hrecW : ∀ b k r b2 k2 tr, recT b k = some (r, b2, k2, tr) →
      ∀ (q : Nat × Nat) (v : Int), (q, v) ∈ tr → valN b q.1 q.2 = EMPTY_VAL)
    (hrecR : ∀ b k r b2 k2 tr, recT b k = some (r, b2, k2, tr) → b2 = b) :
    ∀ (vs : List Int) (b : Board) (k : Nat) (r : Bool) (b2 : Board) (k2 : Nat)
      (tr : List Write), valN b i j = EMPTY_VAL →
      backTryT recT i j vs b k = some (r, b2, k2, tr) →
      ∀ (q : Nat × Nat) (v : Int), (q, v) ∈ tr → valN b q.1 q.2 = EMPTY_VAL := by
  intro vs
  induction vs with
  | nil =>
    intro b k r b2 k2 tr _ h q v hm
    rw [backTryT] at h
    injection h with h2
    have htr : tr = [] := (congrArg (fun x => x.2.2.2) h2).symm
    rw [htr] at hm
    exact absurd hm (List.not_mem_nil _)
  | cons w vs ih =>
    intro b k r b2 k2 tr hE h q v hm
    have hsub : ∀ (q : Nat × Nat) (v : Int) (tr3 : List Write) (w2 : Int),
        ((q, v) ∈ tr3 → valN (setVal b i j w2) q.1 q.2 = EMPTY_VAL) →
        (q, v) ∈ tr3 → valN b q.1 q.2 = EMPTY_VAL := by
      intro q2 v2 tr3 w2 hin hm2
      by_cases hq : q2.1 = i ∧ q2.2 = j
      · rw [hq.1, hq.2]
        exact hE
      · rw [← valN_setVal_ne b w2 hq]
        exact hin hm2
    rw [backTryT] at h
    rcases hr : recT (setVal b i j w) k with _ | ⟨r3, b3, k3, tr3⟩
    · rw [hr] at h
      exact absurd h (by simp)
    · rw [hr] at h
      have hb3 : b3 = setVal b i j w := hrecR _ _ _ _ _ _ hr
      rcases r3 with _ | _
      · simp only at h
        rcases hr2 : backTryT recT i j vs (setVal b3 i j EMPTY_VAL) k3 with
          _ | ⟨r4, b4, k4, tr4⟩
        · rw [hr2] at h
          exact absurd h (by simp)
        · rw [hr2] at h
          injection h with h2
          have htr : tr = ((i, j), w) :: tr3 ++ ((i, j), EMPTY_VAL) :: tr4 :=
            (congrArg (fun x => x.2.2.2) h2).symm
          rw [htr] at hm
          have hback : setVal b3 i j EMPTY_VAL = b := by
            rw [hb3, setVal_setVal]
            exact setVal_eq_self hi hj hE
          rw [hback] at hr2
          rcases List.mem_cons.mp hm with hm1 | hm1
          · have : q = (i, j) := congrArg Prod.fst hm1
            rw [this]
            exact hE
          · rcases List.mem_append.mp hm1 with hm2 | hm2
            · exact hsub q v tr3 w (hrecW _ _ _ _ _ _ hr q v) hm2
            · rcases List.mem_cons.mp hm2 with hm3 | hm3
              · have : q = (i, j) := congrArg Prod.fst hm3
                rw [this]
                exact hE
              · exact ih b k3 r4 b4 k4 tr4 hE hr2 q v hm3
      · simp only at h
        injection h with h2
        have htr : tr = ((i, j), w) :: tr3 ++ [((i, j), EMPTY_VAL)] :=
          (congrArg (fun x => x.2.2.2) h2).symm
        rw [htr] at hm
        rcases List.mem_cons.mp hm with hm1 | hm1
        · have : q = (i, j) := congrArg Prod.fst hm1
          rw [this]
          exact hE
        · rcases List.mem_append.mp hm1 with hm2 | hm2
          · exact hsub q v tr3 w (hrecW _ _ _ _ _ _ hr q v) hm2
          · rcases List.mem_cons.mp hm2 with hm3 | hm3
            · have : q = (i, j) := congrArg Prod.fst hm3
              rw [this]
              exact hE
            · exact absurd hm3 (List.not_mem_nil _)

lemma backAuxT_writes (sh : Nat → List Int) :
    ∀ (fuel i j : Nat) (b : Board) (k : Nat) (r : Bool) (b2 : Board) (k2 : Nat)
      (tr : List Write), j ≤ 9 →
      backAuxT sh fuel i j b k = some (r, b2, k2, tr) →
      ∀ (q : Nat × Nat) (v : Int), (q, v) ∈ tr → valN b q.1 q.2 = EMPTY_VAL := by
  intro fuel
  induction fuel with
  | zero =>
    intro i j b k r b2 k2 tr _ h
    exact absurd h (by simp [backAuxT])
  | succ fuel ih =>
    intro i j b k r b2 k2 tr hj h
    obtain ⟨i2, j2, _, hidx, hj2, heq⟩ := backAuxT_succ sh fuel i j b k hj
    rw [heq] at h
    by_cases hv : is_sudoku_valid b = false
    · rw [if_pos hv] at h
      injection h with h2
      have htr : tr = [] := (congrArg (fun x => x.2.2.2) h2).symm
      rw [htr]
      intro q v hm
      exact absurd hm (List.not_mem_nil _)
    · rw [if_neg hv] at h
      by_cases h9 : 9 ≤ i2
      · rw [if_pos h9] at h
        injection h with h2
        have htr : tr = [] := (congrArg (fun x => x.2.2.2) h2).symm
        rw [htr]
        intro q v hm
        exact absurd hm (List.not_mem_nil _)
      · rw [if_neg h9] at h
        by_cases hne : valN b i2 j2 ≠ EMPTY_VAL
        · rw [if_pos hne] at h
          exact ih i2 (j2 + 1) b k r b2 k2 tr (by omega) h
        · rw [if_neg hne] at h
          push_neg at hne
          refine backTryT_writes (by omega) hj2
            (fun b3 k3 r3 b4 k4 tr3 hh => ih i2 (j2 + 1) b3 k3 r3 b4 k4 tr3 (by omega) hh)
            ?_ (sh k) b (k + 1) r b2 k2 tr hne h
          intro b3 k3 r3 b4 k4 tr3 hh
          have hdrop := backAuxT_erase sh fuel i2 (j2 + 1) b3 k3 (by omega)
          rw [hh] at hdrop
          exact backAux_restore sh fuel i2 (j2 + 1) b3 k3 r3 b4 k4 (by omega) hdrop.symm

/-- Claim C7: every write the solvability search performs (as recorded
by the instrumented search, which computes the same result) targets a
cell that was empty when the search was entered; cells that already held
a value are never assigned, even transiently. -/
theorem search_writes_only_empty (sh : Nat → List Int) (fuel : Nat) (b : Board)
    (k : Nat) (r : Bool) (b2 : Board) (k2 : Nat) (tr : List Write)
    (h : backAuxT sh fuel 0 0 b k = some (r, b2, k2, tr)) :
    ∀ (q : Nat × Nat) (v : Int), (q, v) ∈ tr → valN b q.1 q.2 = EMPTY_VAL :=
  backAuxT_writes sh fuel 0 0 b k r b2 k2 tr (by omega) h

/-- The write trace of the solvability search on `bStuck` with the
identity oracle: cell `(0, 0)` is tried with each digit and restored. -/
def trStuck : List Write :=
  [((0, 0), 1), ((0, 0), -1), ((0, 0), 2), ((0, 0), -1), ((0, 0), 3), ((0, 0), -1),
   ((0, 0), 4), ((0, 0), -1), ((0, 0), 5), ((0, 0), -1), ((0, 0), 6), ((0, 0), -1),
   ((0, 0), 7), ((0, 0), -1), ((0, 0), 8), ((0, 0), -1), ((0, 0), 9), ((0, 0), -1)]

/-- Claim C7 witness: on the concrete board `bStuck` the search records
a non-trivial trace, and the theorem yields that the written cell was
empty at entry. -/
theorem search_writes_only_empty_witness : valN bStuck 0 0 = EMPTY_VAL := by
  have h1 : (backAuxT shId 100 0 0 bStuck 0).map (fun x => (x.1, x.2.2.1, x.2.2.2)) =
      some (false, 1, trStuck) := by decide
  rcases hg : backAuxT shId 100 0 0 bStuck 0 with _ | ⟨r, bb, kk, tr⟩
  · rw [hg] at h1
    exact absurd h1 (by simp)
  · rw [hg] at h1
    simp only [Option.map, Option.some.injEq, Prod.mk.injEq] at h1
    obtain ⟨hrt, hkk, htr⟩ := h1
    subst htr
    exact search_writes_only_empty shId 100 bStuck 0 r bb kk trStuck hg
      (0, 0) 1 (by simp [trStuck])

/-! ### Masking -/

lemma setValP_same (b : Board) (p : Fin 9 × Fin 9) (v : Int) :
    setValP b p v p.1 p.2 = { b p.1 p.2 with val := v } := by
  simp [setValP]

lemma setValP_ne (b : Board) (p : Fin 9 × Fin 9) (v : Int) {q : Fin 9 × Fin 9}
    (h : q ≠ p) : setValP b p v q.1 q.2 = b q.1 q.2 := by
  have h2 : ¬(q.1 = p.1 ∧ q.2 = p.2) := by
    rintro ⟨h1, h3⟩
    exact h (Prod.ext h1 h3)
  simp [setValP, h2]

lemma setClick_same (b : Board) (p : Fin 9 × Fin 9) (c : Bool) :
    setClick b p c p.1 p.2 = { b p.1 p.2 with is_clickable := c } := by
  simp [setClick]

lemma setClick_ne (b : Board) (p : Fin 9 × Fin 9) (c : Bool) {q : Fin 9 × Fin 9}
    (h : q ≠ p) : setClick b p c q.1 q.2 = b q.1 q.2 := by
  have h2 : ¬(q.1 = p.1 ∧ q.2 = p.2) := by
    rintro ⟨h1, h3⟩
    exact h (Prod.ext h1 h3)
  simp [setClick, h2]

/-- Index of the first occurrence of `p` in `ps` (the position list of
the masking loop). -/
def findIdx0 (p : Fin 9 × Fin 9) : List (Fin 9 × Fin 9) → Nat
  | [] => 0
  | q :: ps => if q = p then 0 else findIdx0 p ps + 1

lemma findIdx0_lt {p : Fin 9 × Fin 9} :
    ∀ {ps : List (Fin 9 × Fin 9)}, p ∈ ps → findIdx0 p ps < ps.length := by
  intro ps
  induction ps with
  | nil => intro h; exact absurd h (List.not_mem_nil p)
  | cons q ps ih =>
    intro h
    rw [findIdx0]
    by_cases hq : q = p
    · rw [if_pos hq]
      simp
    · rw [if_neg hq]
      have hp : p ∈ ps := by
        rcases List.mem_cons.mp h with h2 | h2
        · exact absurd h2.symm hq
        · exact h2
      have := ih hp
      simp only [List.length_cons]
      omega

lemma findIdx0_getD {p : Fin 9 × Fin 9} (d : Fin 9 × Fin 9) :
    ∀ {ps : List (Fin 9 × Fin 9)}, p ∈ ps → ps.getD (findIdx0 p ps) d = p := by
  intro ps
  induction ps with
  | nil => intro h; exact absurd h (List.not_mem_nil p)
  | cons q ps ih =>
    intro hm
    by_cases hq : q = p
    · rw [findIdx0, if_pos hq, List.getD_cons_zero]
      exact hq
    · have hp : p ∈ ps := by
        rcases List.mem_cons.mp hm with h2 | h2
        · exact absurd h2.symm hq
        · exact h2
      rw [findIdx0, if_neg hq, List.getD_cons_succ]
      exact ih hp

lemma getD_mem_of_lt {d : Fin 9 × Fin 9} :
    ∀ {ps : List (Fin 9 × Fin 9)} {n : Nat}, n < ps.length → ps.getD n d ∈ ps := by
  intro ps
  induction ps with
  | nil => intro n h; exact absurd h (by simp)
  | cons q ps ih =>
    intro n h
    rcases n with _ | n
    · rw [List.getD_cons_zero]
      exact List.mem_cons_self q ps
    · rw [List.getD_cons_succ]
      exact List.mem_cons_of_mem _ (ih (by simp only [List.length_cons] at h; omega))

lemma findIdx0_inj {p q : Fin 9 × Fin 9} :
    ∀ {ps : List (Fin 9 × Fin 9)}, p ∈ ps → q ∈ ps →
      findIdx0 p ps = findIdx0 q ps → p = q := by
  intro ps
  induction ps with
  | nil => intro h; exact absurd h (List.not_mem_nil p)
  | cons w ps ih =>
    intro hp hq heq
    rw [findIdx0, findIdx0] at heq
    by_cases hwp : w = p
    · by_cases hwq : w = q
      · exact hwp.symm.trans hwq
      · rw [if_pos hwp, if_neg hwq] at heq
        omega
    · by_cases hwq : w = q
      · rw [if_neg hwp, if_pos hwq] at heq
        omega
      · rw [if_neg hwp, if_neg hwq] at heq
        have hp2 : p ∈ ps := by
          rcases List.mem_cons.mp hp with h2 | h2
          · exact absurd h2.symm hwp
          · exact h2
        have hq2 : q ∈ ps := by
          rcases List.mem_cons.mp hq with h2 | h2
          · exact absurd h2.symm hwq
          · exact h2
        exact ih hp2 hq2 (by omega)

lemma maskGo_not_mem {p : Fin 9 × Fin 9} :
    ∀ (ps : List (Fin 9 × Fin 9)) (b : Board) (k : Nat), p ∉ ps →
      maskGo b k ps p.1 p.2 = b p.1 p.2 := by
  intro ps
  induction ps with
  | nil => intro b k _; rfl
  | cons q ps ih =>
    intro b k hp
    have hq : p ≠ q := fun h => hp (h ▸ List.mem_cons_self q ps)
    have hps : p ∉ ps := fun h => hp (List.mem_cons_of_mem _ h)
    rw [maskGo, ih _ (k + 1) hps]
    by_cases hk : k < 81 - keep_num_of_cells
    · rw [if_pos hk, setValP_ne b q _ hq]
    · rw [if_neg hk, setClick_ne b q _ hq]

lemma maskGo_at {p : Fin 9 × Fin 9} {d : Fin 9 × Fin 9} :
    ∀ (ps : List (Fin 9 × Fin 9)) (b : Board) (k n : Nat), n < ps.length →
      ps.Nodup → ps.getD n d = p →
      maskGo b k ps p.1 p.2 =
        if k + n < 81 - keep_num_of_cells then { b p.1 p.2 with val := EMPTY_VAL }
        else { b p.1 p.2 with is_clickable := false } := by
  intro ps
  induction ps with
  | nil =>
    intro b k n h
    exact absurd h (by simp)
  | cons q ps ih =>
    intro b k n h hnd hget
    obtain ⟨hq, hnd2⟩ := List.nodup_cons.mp hnd
    rcases n with _ | n
    · rw [List.getD_cons_zero] at hget
      subst hget
      rw [maskGo, maskGo_not_mem ps _ (k + 1) hq]
      by_cases hk : k < 81 - keep_num_of_cells
      · rw [if_pos hk, setValP_same, if_pos (by omega)]
      · rw [if_neg hk, setClick_same, if_neg (by omega)]
    · rw [List.getD_cons_succ] at hget
      have hlen : n < ps.length := by
        simp only [List.length_cons] at h
        omega
      have hpmem : p ∈ ps := hget ▸ getD_mem_of_lt hlen
      have hpq : p ≠ q := fun hpe => hq (hpe ▸ hpmem)
      rw [maskGo]
      have := ih (if k < 81 - keep_num_of_cells then setValP b q EMPTY_VAL
        else setClick b q false) (k + 1) n hlen hnd2 hget
      rw [this]
      have hcell : (if k < 81 - keep_num_of_cells then setValP b q EMPTY_VAL
          else setClick b q false) p.1 p.2 = b p.1 p.2 := by
        by_cases hk : k < 81 - keep_num_of_cells
        · rw [if_pos hk, setValP_ne b q _ hpq]
        · rw [if_neg hk, setClick_ne b q _ hpq]
      rw [hcell, show k + 1 + n = k + (n + 1) from by omega]

/-- Claim C6: masking a fully-filled all-clickable board along a
permutation `ps` of the 81 positions leaves exactly `81 - 30 = 51` cells
empty and clickable, and exactly `30` cells that keep their generated
digit and are no longer clickable. -/
theorem masking_counts (b : Board) (ps : List (Fin 9 × Fin 9))
    (hnd : ps.Nodup) (hlen : ps.length = 81) (hmem : ∀ p : Fin 9 × Fin 9, p ∈ ps)
    (hvals : ∀ p : Fin 9 × Fin 9, (b p.1 p.2).val ≠ EMPTY_VAL)
    (hclick : ∀ p : Fin 9 × Fin 9, (b p.1 p.2).is_clickable = true) :
    (Finset.univ.filter fun p : Fin 9 × Fin 9 =>
      (maskTable b ps p.1 p.2).val = EMPTY_VAL ∧
      (maskTable b ps p.1 p.2).is_clickable = true).card = 51 ∧
    (Finset.univ.filter fun p : Fin 9 × Fin 9 =>
      (maskTable b ps p.1 p.2).val = (b p.1 p.2).val ∧
      (maskTable b ps p.1 p.2).is_clickable = false).card = 30 := by
  have key : ∀ p : Fin 9 × Fin 9, maskTable b ps p.1 p.2 =
      if findIdx0 p ps < 51 then { b p.1 p.2 with val := EMPTY_VAL }
      else { b p.1 p.2 with is_clickable := false } := by
    intro p
    have := maskGo_at (d := p) ps b 0 (findIdx0 p ps) (findIdx0_lt (hmem p)) hnd
      (findIdx0_getD p (hmem p))
    unfold maskTable
    rw [this, show (0 : Nat) + findIdx0 p ps = findIdx0 p ps from by omega,
      show 81 - keep_num_of_cells = 51 from rfl]
  have hinj : Function.Injective fun p : Fin 9 × Fin 9 => findIdx0 p ps :=
    fun p q h => findIdx0_inj (hmem p) (hmem q) h
  have hcard81 : (Finset.univ : Finset (Fin 9 × Fin 9)).card = 81 := by
    simp
  have hfilter1 : (Finset.univ.filter fun p : Fin 9 × Fin 9 =>
      (maskTable b ps p.1 p.2).val = EMPTY_VAL ∧
      (maskTable b ps p.1 p.2).is_clickable = true) =
      (Finset.univ.filter fun p : Fin 9 × Fin 9 => findIdx0 p ps < 51) := by
    apply Finset.filter_congr
    intro p _
    rw [key p]
    by_cases hf : findIdx0 p ps < 51
    · rw [if_pos hf]
      exact iff_of_true ⟨rfl, hclick p⟩ hf
    · rw [if_neg hf]
      exact iff_of_false (fun h => hvals p h.1) hf
  have hfilter2 : (Finset.univ.filter fun p : Fin 9 × Fin 9 =>
      (maskTable b ps p.1 p.2).val = (b p.1 p.2).val ∧
      (maskTable b ps p.1 p.2).is_clickable = false) =
      (Finset.univ.filter fun p : Fin 9 × Fin 9 => ¬ findIdx0 p ps < 51) := by
    apply Finset.filter_congr
    intro p _
    rw [key p]
    by_cases hf : findIdx0 p ps < 51
    · rw [if_pos hf]
      exact iff_of_false (fun h => hvals p h.1.symm) (fun hcon => hcon hf)
    · rw [if_neg hf]
      exact iff_of_true ⟨rfl, rfl⟩ hf
  have himage : Finset.univ.image (fun p : Fin 9 × Fin 9 => findIdx0 p ps) =
      Finset.range 81 := by
    refine Finset.eq_of_subset_of_card_le ?_ ?_
    · intro v hv
      rw [Finset.mem_image] at hv
      obtain ⟨p, _, rfl⟩ := hv
      rw [Finset.mem_range, ← hlen]
      exact findIdx0_lt (hmem p)
    · rw [Finset.card_image_of_injective _ hinj, hcard81, Finset.card_range]
  have hcount : ∀ m : Nat,
      (Finset.univ.filter fun p : Fin 9 × Fin 9 => findIdx0 p ps < m).card =
      ((Finset.range 81).filter fun n => n < m).card := by
    intro m
    have e1 : ((Finset.univ.image fun p : Fin 9 × Fin 9 => findIdx0 p ps).filter
        fun n => n < m) =
        (Finset.univ.filter fun p : Fin 9 × Fin 9 => findIdx0 p ps < m).image
          (fun p => findIdx0 p ps) := Finset.filter_image
    rw [← Finset.card_image_of_injective
      (Finset.univ.filter fun p : Fin 9 × Fin 9 => findIdx0 p ps < m) hinj, ← e1, himage]
  have hr51 : ((Finset.range 81).filter fun n => n < 51).card = 51 := by
    rw [show (Finset.range 81).filter (fun n => n < 51) = Finset.range 51 from by
      ext n
      simp only [Finset.mem_filter, Finset.mem_range]
      omega]
    exact Finset.card_range 51
  have h1 : (Finset.univ.filter fun p : Fin 9 × Fin 9 => findIdx0 p ps < 51).card = 51 :=
    (hcount 51).trans hr51
  have h2 : (Finset.univ.filter fun p : Fin 9 × Fin 9 => ¬ findIdx0 p ps < 51).card = 30 := by
    have := Finset.filter_card_add_filter_neg_card_eq_card
      (s := (Finset.univ : Finset (Fin 9 × Fin 9)))
      (p := fun p => findIdx0 p ps < 51)
    rw [hcard81, h1] at this
    omega
  rw [hfilter1, hfilter2]
  exact ⟨h1, h2⟩

/-- Claim C6 witness: masking the concrete solved board along the
row-major position order. -/
theorem masking_counts_witness :
    (Finset.univ.filter fun p : Fin 9 × Fin 9 =>
      (maskTable solB posList p.1 p.2).val = EMPTY_VAL ∧
      (maskTable solB posList p.1 p.2).is_clickable = true).card = 51 ∧
    (Finset.univ.filter fun p : Fin 9 × Fin 9 =>
      (maskTable solB posList p.1 p.2).val = (solB p.1 p.2).val ∧
      (maskTable solB posList p.1 p.2).is_clickable = false).card = 30 :=
  masking_counts solB posList posList_nodup (by decide) mem_posList
    (by decide) (by decide)
